import Mathlib

set_option maxRecDepth 100000

/-!
Verification development for the pc-builder-backend CSV import scripts.

The repository consists of two near-identical Python ETL scripts
(`src/main/resources/load-dataset.py` is the canonical, richer variant).
This file gives a shallow embedding of the script's row normalization,
identifier derivation (SHA-1), payload construction, and the database
upsert semantics of its SQL statements, and proves the frozen claims
about that behavior.

Machine-level conventions of the embedding:
* bytes and 32-bit words are `Nat` with explicit reduction `% 2 ^ 32`;
* Python `None`-able CSV cell values are `Option String`;
* Python dicts are association lists with insert-or-replace-in-place,
  reproducing Python's insertion-order semantics;
* a Python exception is the `Except.error` branch;
* timestamps (`datetime.utcnow()`) are abstract `Nat` clock samples,
  one sample consumed per `upsert_components` call as in the source.
-/

/-! ## SHA-1 over byte lists (bytes and words are `Nat`) -/

/-- The modulus for 32-bit words, written out as a numeral. -/
def w32 : Nat := 4294967296

/-- Left-rotation of a 32-bit word by `n` bits. -/
def rotl (n x : Nat) : Nat := ((x <<< n) % w32) ||| (x >>> (32 - n))

/-- Big-endian byte list of length `k` for the value `v`. -/
def beBytes : Nat → Nat → List Nat
  | 0, _ => []
  | k + 1, v => beBytes k (v / 256) ++ [v % 256]

/-- SHA-1 padding: append 0x80, zero bytes, and the 64-bit big-endian
bit length, so the total length is a multiple of 64 bytes. -/
def sha1Pad (msg : List Nat) : List Nat :=
  let len := msg.length
  msg ++ [128] ++ List.replicate ((119 - len % 64) % 64) 0 ++ beBytes 8 (8 * len)

/-- Group a chunk of bytes into big-endian 32-bit words. -/
def toWords : List Nat → List Nat
  | b0 :: b1 :: b2 :: b3 :: rest =>
      (((b0 * 256 + b1) * 256 + b2) * 256 + b3) :: toWords rest
  | _ => []

/-- Extend the 16 chunk words to the 80 schedule words of SHA-1. -/
def extendWords (ws : List Nat) : List Nat :=
  (List.range 64).foldl (fun acc _ =>
    let n := acc.length
    acc ++ [rotl 1 ((acc.getD (n - 3) 0) ^^^ (acc.getD (n - 8) 0) ^^^
                    (acc.getD (n - 14) 0) ^^^ (acc.getD (n - 16) 0))]) ws

/-- The SHA-1 round function, by round index. -/
def sha1F (i b c d : Nat) : Nat :=
  if i < 20 then (b &&& c) ||| ((b ^^^ 4294967295) &&& d)
  else if i < 40 then b ^^^ c ^^^ d
  else if i < 60 then (b &&& c) ||| (b &&& d) ||| (c &&& d)
  else b ^^^ c ^^^ d

/-- The SHA-1 round constant, by round index. -/
def sha1K (i : Nat) : Nat :=
  if i < 20 then 1518500249
  else if i < 40 then 1859775393
  else if i < 60 then 2400959708
  else 3395469782

/-- Process one 64-byte chunk, updating the five hash words. -/
def sha1Chunk (h : Nat × Nat × Nat × Nat × Nat) (chunk : List Nat) :
    Nat × Nat × Nat × Nat × Nat :=
  let ws := extendWords (toWords chunk)
  let step := fun (st : Nat × Nat × Nat × Nat × Nat × Nat) (w : Nat) =>
    let t := (rotl 5 st.2.1 + sha1F st.1 st.2.2.1 st.2.2.2.1 st.2.2.2.2.1 +
              st.2.2.2.2.2 + sha1K st.1 + w) % w32
    (st.1 + 1, t, st.2.1, rotl 30 st.2.2.1, st.2.2.2.1, st.2.2.2.2.1)
  let fin := ws.foldl step (0, h.1, h.2.1, h.2.2.1, h.2.2.2.1, h.2.2.2.2)
  ((h.1 + fin.2.1) % w32, (h.2.1 + fin.2.2.1) % w32, (h.2.2.1 + fin.2.2.2.1) % w32,
   (h.2.2.2.1 + fin.2.2.2.2.1) % w32, (h.2.2.2.2 + fin.2.2.2.2.2) % w32)

/-- The five 32-bit hash words of the SHA-1 digest of a byte list. -/
def sha1Words (msg : List Nat) : Nat × Nat × Nat × Nat × Nat :=
  let padded := sha1Pad msg
  let chunks := (List.range (padded.length / 64)).map
    (fun i => (padded.drop (64 * i)).take 64)
  chunks.foldl sha1Chunk (1732584193, 4023233417, 2562383102, 271733878, 3285377520)

/-- Lower-case hex digit for a value below 16. -/
def hexDigit (n : Nat) : Char := if n < 10 then Char.ofNat (48 + n) else Char.ofNat (87 + n)

/-- Eight hex digits of a 32-bit word, most significant first. -/
def hexWord8 (v : Nat) : List Char :=
  (List.range 8).map (fun i => hexDigit (v / 16 ^ (7 - i) % 16))

/-- Hex-encoded SHA-1 digest (40 lower-case hex characters), as
`hashlib.sha1(...).hexdigest()` produces. -/
def sha1Hex (msg : List Nat) : String :=
  let h := sha1Words msg
  String.mk (hexWord8 h.1 ++ hexWord8 h.2.1 ++ hexWord8 h.2.2.1 ++
             hexWord8 h.2.2.2.1 ++ hexWord8 h.2.2.2.2)

/-! ## UTF-8 encoding -/

/-- UTF-8 byte sequence of one Unicode code point. -/
def utf8Char (c : Nat) : List Nat :=
  if c < 128 then [c]
  else if c < 2048 then [192 + c / 64, 128 + c % 64]
  else if c < 65536 then [224 + c / 4096, 128 + c / 64 % 64, 128 + c % 64]
  else [240 + c / 262144, 128 + c / 4096 % 64, 128 + c / 64 % 64, 128 + c % 64]

/-- UTF-8 encoding of a string, as Python's `str.encode("utf-8")`. -/
def strUtf8 (s : String) : List Nat :=
  (s.data.map (fun ch => utf8Char ch.toNat)).flatten

/-- Embeds `hash_component_id` of `load-dataset.py`: the hex SHA-1 of
the UTF-8 encoding of `category|name|url` joined with pipes. -/
def hash_component_id (category name url : String) : String :=
  sha1Hex (strUtf8 (category ++ "|" ++ name ++ "|" ++ url))

/-! ## Python value modelling -/

/-- A CSV cell as handed over by `csv.DictReader`: a string, or Python
`None` for a missing trailing field. -/
abbrev Cell := Option String

/-- A raw CSV row: the header names paired with the row's cells, in
column order. -/
abbrev Row := List (String × Cell)

/-- Python dict assignment `d[k] = v`: replace in place when the key
exists (keeping its position, as Python dicts do), else append. -/
def dictInsert : List (String × Cell) → String → Cell → List (String × Cell)
  | [], k, v => [(k, v)]
  | (k', v') :: rest, k, v =>
      if k' = k then (k, v) :: rest else (k', v') :: dictInsert rest k v

/-- Python `d.get(k)` on the association-list dict; the outer `Option`
is key presence, the inner one is the Python-`None` cell. -/
def dictGet (d : List (String × Cell)) (k : String) : Option Cell :=
  (d.find? (fun p => p.1 = k)).map (fun p => p.2)

/-- Drop leading and trailing whitespace from a character list. -/
def trimChars (l : List Char) : List Char :=
  ((l.dropWhile Char.isWhitespace).reverse.dropWhile Char.isWhitespace).reverse

/-- Models Python `str.strip()` (on ASCII whitespace). -/
def pyStrip (s : String) : String := String.mk (trimChars s.data)

/-- Models Python `str.lower()` (on ASCII letters). -/
def pyLower (s : String) : String := String.mk (s.data.map Char.toLower)

/-- Split a character list at every occurrence of a separator,
keeping empty chunks, like `str.split(sep)`. -/
def splitOnChar (sep : Char) : List Char → List (List Char)
  | [] => [[]]
  | c :: rest =>
      if c = sep then [] :: splitOnChar sep rest
      else
        match splitOnChar sep rest with
        | chunk :: more => (c :: chunk) :: more
        | [] => [[c]]

/-- Nonempty-digit-run value, else `none`; models the digit run of
Python's numeric literals. -/
def digitsVal (l : List Char) : Option Nat :=
  if l.isEmpty then none
  else l.foldlM (fun a c => if c.isDigit then some (a * 10 + (c.toNat - 48)) else none) 0

/-- Split a leading `+` or `-` sign from a numeric literal. -/
def signSplitL : List Char → Int × List Char
  | '-' :: rest => (-1, rest)
  | '+' :: rest => (1, rest)
  | l => (1, l)

/-- An exact decimal value `num / den`, the embedding of a parsed
Python float literal (kept exact rather than rounded to binary64;
the claims never depend on rounding). -/
structure PyFloat where
  num : Int
  den : Nat
deriving DecidableEq, Repr

/-- Scale a decimal value by a power of ten. -/
def scaleDec (x : PyFloat) (ex : Int) : PyFloat :=
  match ex with
  | .ofNat k => ⟨x.num * 10 ^ k, x.den⟩
  | .negSucc k => ⟨x.num, x.den * 10 ^ (k + 1)⟩

/-- Mantissa of a Python float literal: digits with an optional
decimal point (at least one digit overall). -/
def parseMant (sg : Int) (m : List Char) (ex : Int) : Option PyFloat :=
  match splitOnChar '.' m with
  | [i] => (digitsVal i).map (fun n => scaleDec ⟨sg * n, 1⟩ ex)
  | [i, f] =>
      if i.isEmpty && f.isEmpty then none
      else
        match (if i.isEmpty then some 0 else digitsVal i),
              (if f.isEmpty then some 0 else digitsVal f) with
        | some iv, some fv =>
            some (scaleDec ⟨sg * (iv * 10 ^ f.length + fv), 10 ^ f.length⟩ ex)
        | _, _ => none
  | _ => none

/-- Models Python `float(...)` on finite decimal literals
(optional sign, digits with optional point, optional exponent); the
value is kept exact as a decimal pair. Failure (`none`) models the
`ValueError` Python raises on unparseable input. -/
def pyFloat (s : String) : Option PyFloat :=
  match signSplitL ((pyStrip s).data.map Char.toLower) with
  | (sg, t) =>
      match splitOnChar 'e' t with
      | [m] => parseMant sg m 0
      | [m, e] =>
          match signSplitL e with
          | (es, ed) => (digitsVal ed).bind (fun n => parseMant sg m (es * n))
      | _ => none

/-- Models Python `int(...)` on decimal literals: optional sign and a
digit run; `none` models the `ValueError` on anything else. -/
def pyInt (s : String) : Option Int :=
  match signSplitL (pyStrip s).data with
  | (sg, t) => (digitsVal t).map (fun n => sg * n)

/-- Applies `str.strip` to a cell when it is a string. -/
def stripCell : Cell → Cell
  | some s => some (pyStrip s)
  | none => none

/-- Python truthiness of `d.get(k)`: a present, non-`None`, non-empty
string cell. -/
def cellTruthy : Option Cell → Bool
  | some (some s) => decide (¬ s = "")
  | _ => false

/-- The string carried by a truthy cell (and `""` otherwise). -/
def cellStr : Option Cell → String
  | some (some s) => s
  | _ => ""

/-! ## Field normalization (from `load-dataset.py`) -/

/-- The alias table `ALIAS_MAP` of the canonical script. -/
def ALIAS_MAP : List (String × String) :=
  [("url", "product_url"), ("link", "product_url"), ("image", "image_url"),
   ("img", "image_url"), ("current_price", "price"), ("price_usd", "price"),
   ("last_price", "previous_price"), ("stock", "in_stock"), ("available", "in_stock")]

/-- The standard component fields `STANDARD_FIELDS`. -/
def STANDARD_FIELDS : List String :=
  ["name", "brand", "price", "previous_price", "image_url", "product_url",
   "in_stock", "stock_units"]

/-- Embeds `normalize_field`: trim, lower-case, then resolve through
the alias table. -/
def normalize_field (fieldName : String) : String :=
  match ALIAS_MAP.find? (fun p => p.1 = pyLower (pyStrip fieldName)) with
  | some p => p.2
  | none => pyLower (pyStrip fieldName)

/-- Embeds `bool_from_value`: case-insensitive, trimmed membership in
the affirmative and negative sets, `none` otherwise. -/
def bool_from_value : Option String → Option Bool
  | none => none
  | some v =>
      if pyLower (pyStrip v) ∈ ["true", "t", "1", "yes", "y", "available", "in stock"] then
        some true
      else if pyLower (pyStrip v) ∈
          ["false", "f", "0", "no", "n", "out of stock", "unavailable"] then
        some false
      else none

/-- Embeds the dict comprehension of `upsert_components`: drop falsy
keys, normalize the key names, strip the string cells; later duplicate
keys overwrite in place like in a Python dict. -/
def normalizeRow (raw : Row) : Row :=
  raw.foldl (fun d kv =>
    if kv.1 = "" then d else dictInsert d (normalize_field kv.1) (stripCell kv.2)) []

/-! ## Records and per-row processing -/

/-- A row of the `components` table as the script INSERTs it.
The timestamp is an abstract clock sample (`Nat`). -/
structure Component where
  id : String
  category : String
  name : String
  brand : Option String
  price : Option PyFloat
  previous_price : Option PyFloat
  image_url : Option String
  product_url : Option String
  in_stock : Option Bool
  stock_units : Int
  last_updated : Nat
deriving DecidableEq, Repr

/-- A row of the `component_attributes` table. -/
structure AttrRecord where
  component_id : String
  attribute_key : String
  attribute_value : String
deriving DecidableEq, Repr

/-- A row of the `component_tags` table. -/
structure TagRecord where
  component_id : String
  tag : String
deriving DecidableEq, Repr

/-- What one accepted row contributes: a component, its attribute
records and its tag records. -/
abbrev RowOut := Component × List AttrRecord × List TagRecord

/-- Price-field handling of the source: parse only a truthy cell, else
`none` (NULL); the outer `Option` is exception vs. success. -/
def parsePrice (c : Option Cell) : Option (Option PyFloat) :=
  if cellTruthy c then (pyFloat (cellStr c)).map some else some none

/-- Stock-units handling of the source: `int(...)` on a truthy cell,
else the default `0`; the outer `Option` is exception vs. success. -/
def parseStock (c : Option Cell) : Option Int :=
  if cellTruthy c then pyInt (cellStr c) else some 0

/-- The tag set of one row: `{brand (if truthy), category}`, rendered
as a duplicate-free list. Python iterates a `set` in an unspecified
order; the embedding fixes the brand-first order, which no table
content depends on. -/
def rowTags (brand : Option String) (category : String) : List String :=
  match brand with
  | some b => if b = "" then [category] else if b = category then [category] else [b, category]
  | none => [category]

/-- The attribute records of one normalized row: every non-standard
key with a truthy value, in dict order. -/
def attrsOf (cid : String) (normalized : Row) : List AttrRecord :=
  normalized.filterMap (fun kv =>
    if kv.1 ∈ STANDARD_FIELDS then none
    else match kv.2 with
         | some v => if v = "" then none else some ⟨cid, kv.1, v⟩
         | none => none)

/-- The `product_url` chain of the source:
`normalized.get("product_url") or normalized.get("url") or ""`. -/
def rowProductUrl (normalized : Row) : String :=
  if cellTruthy (dictGet normalized "product_url") then
    cellStr (dictGet normalized "product_url")
  else if cellTruthy (dictGet normalized "url") then
    cellStr (dictGet normalized "url")
  else ""

/-- The row's brand value, `normalized.get("brand")`. -/
def rowBrand (normalized : Row) : Option String := (dictGet normalized "brand").join

/-- The `in_stock` expression of the source:
`bool_from_value(normalized.get("in_stock")) if normalized.get("in_stock") else True`. -/
def rowInStock (normalized : Row) : Option Bool :=
  if cellTruthy (dictGet normalized "in_stock") then
    bool_from_value ((dictGet normalized "in_stock").join)
  else some true

/-- The per-row body of `upsert_components` on an already-normalized
row dict: silently skip a row without a truthy name, derive the id,
assemble the component and its attribute and tag records; a numeric
parse failure is the propagated exception. -/
def processRowN (category : String) (now : Nat) (normalized : Row) :
    Except String (Option RowOut) :=
  match dictGet normalized "name" with
  | some (some name) =>
      if name = "" then .ok none
      else
        match parsePrice (dictGet normalized "price"),
              parsePrice (dictGet normalized "previous_price"),
              parseStock (dictGet normalized "stock_units") with
        | some price, some pprice, some stock =>
            .ok (some
              ({ id := hash_component_id category name (rowProductUrl normalized),
                 category := category, name := name, brand := rowBrand normalized,
                 price := price, previous_price := pprice,
                 image_url := (dictGet normalized "image_url").join,
                 product_url :=
                   if rowProductUrl normalized = "" then none
                   else some (rowProductUrl normalized),
                 in_stock := rowInStock normalized,
                 stock_units := stock, last_updated := now },
               attrsOf (hash_component_id category name (rowProductUrl normalized)) normalized,
               (rowTags (rowBrand normalized) category).map
                 (fun t => ⟨hash_component_id category name (rowProductUrl normalized), t⟩)))
        | _, _, _ => .error "numeric parse"
  | _ => .ok none

/-- Embeds the per-row body of `upsert_components`: normalize the
field names and values, then process the normalized dict. -/
def processRow (category : String) (now : Nat) (raw : Row) : Except String (Option RowOut) :=
  processRowN category now (normalizeRow raw)

/-- Projection of a processed row onto the assembled component's
`in_stock` field (`none` when the row was skipped or raised). -/
def inStockOf (r : Except String (Option RowOut)) : Option (Option Bool) :=
  match r with
  | .ok (some out) => some out.1.in_stock
  | _ => none

/-- The three per-file payload lists `upsert_components` accumulates. -/
structure Payload where
  components : List Component
  attrs : List AttrRecord
  tags : List TagRecord
deriving DecidableEq, Repr

/-- Embeds the payload-building loop of `upsert_components` over a
file's rows: each accepted row appends its records in row order; a
row's exception aborts the whole file. -/
def buildPayloads (category : String) (now : Nat) : List Row → Except String Payload
  | [] => .ok ⟨[], [], []⟩
  | r :: rest =>
      match processRow category now r with
      | .error e => .error e
      | .ok res =>
          match buildPayloads category now rest with
          | .error e => .error e
          | .ok p =>
              match res with
              | none => .ok p
              | some (c, as, ts) => .ok ⟨c :: p.components, as ++ p.attrs, ts ++ p.tags⟩

/-! ## Generic insert-or-update-on-conflict tables

The three SQL statements of `upsert_components` act on a table (a list
of rows) by conflict key: replace-in-place on conflict, append
otherwise. `upG` is that operation, generic in the row type, the
conflict key, and the merge performed on conflict. -/

section UpsertTheory

variable {R K I M : Type} [DecidableEq K]

/-- Insert-or-update-on-conflict of one row into a table: the first
row with the same key is merged in place, otherwise the row is
appended (models `INSERT ... ON CONFLICT ... DO UPDATE`). -/
def upG (key : R → K) (mg : R → R → R) : List R → R → List R
  | [], c => [c]
  | r :: rest, c => if key r = key c then mg r c :: rest else r :: upG key mg rest c

/-- The laws the merge of an upsertable table satisfies: an immutable
part `imm` (kept from the old row) determining the key, and a mutable
part `mut` (taken from the new row), which together determine a row. -/
structure UpsertLaws (key : R → K) (imm : R → I) (muta : R → M) (mg : R → R → R) : Prop where
  keyimm : ∀ r r', imm r = imm r' → key r = key r'
  immmg : ∀ r c, imm (mg r c) = imm r
  mutmg : ∀ r c, muta (mg r c) = muta c
  ext : ∀ r r', imm r = imm r' → muta r = muta r' → r = r'

/-- First row of the table with the given key, the row SQL conflict
detection finds. -/
def findKey (key : R → K) (T : List R) (k : K) : Option R :=
  T.find? (fun r => decide (key r = k))

end UpsertTheory

/-- Two tables that agree row-for-row on the immutable part and agree
entirely outside a set `D` of conflict keys. Upserting the same
payload into both re-synchronizes every key the payload carries. -/
inductive Aligned {R K I : Type} (imm : R → I) (key : R → K) (D : List K) :
    List R → List R → Prop
  | nil : Aligned imm key D [] []
  | cons {r r' : R} {T T' : List R} : imm r = imm r' → (key r ∉ D → r = r') →
      Aligned imm key D T T' → Aligned imm key D (r :: T) (r' :: T')

/-! ## The database model -/

/-- Merge of the `components` upsert: `ON CONFLICT (id) DO UPDATE`
overwrites every mutable field with the excluded row's value; `id`,
`category` and `name` are not in the update list and stay. -/
def mergeComp (old c : Component) : Component :=
  { c with id := old.id, category := old.category, name := old.name }

/-- A component row with the timestamp field erased, for stating
equality of tables up to timestamps. -/
structure ComponentE where
  id : String
  category : String
  name : String
  brand : Option String
  price : Option PyFloat
  previous_price : Option PyFloat
  image_url : Option String
  product_url : Option String
  in_stock : Option Bool
  stock_units : Int
deriving DecidableEq, Repr

/-- Forget the `last_updated` timestamp of a component row. -/
def eraseTs (c : Component) : ComponentE :=
  ⟨c.id, c.category, c.name, c.brand, c.price, c.previous_price, c.image_url,
   c.product_url, c.in_stock, c.stock_units⟩

/-- The merge of `mergeComp`, on timestamp-erased rows. -/
def mergeCompE (old c : ComponentE) : ComponentE :=
  { c with id := old.id, category := old.category, name := old.name }

/-- The `components` table upsert, keyed by `id`. -/
def upsertComp : List Component → Component → List Component :=
  upG Component.id mergeComp

/-- The `components` upsert acting on timestamp-erased rows. -/
def upsertCompE : List ComponentE → ComponentE → List ComponentE :=
  upG ComponentE.id mergeCompE

/-- The `component_attributes` upsert, keyed by
`(component_id, attribute_key)`; only `attribute_value` is updated. -/
def upsertAttr : List AttrRecord → AttrRecord → List AttrRecord :=
  upG (fun a => (a.component_id, a.attribute_key))
    (fun old c => { old with attribute_value := c.attribute_value })

/-- The conflict key of the `component_tags` insert:
`(component_id, normalized_tag)`. The `normalized_tag` derivation
lives in the database schema, outside this repository, so it is an
abstract parameter `normTag`. -/
def tagKey (normTag : String → String) (t : TagRecord) : String × String :=
  (t.component_id, normTag t.tag)

/-- The `component_tags` insert: `ON CONFLICT ... DO NOTHING`. -/
def insertTag (normTag : String → String) (T : List TagRecord) (t : TagRecord) :
    List TagRecord :=
  if tagKey normTag t ∈ T.map (tagKey normTag) then T else T ++ [t]

/-- The three tables the script writes. -/
structure DB where
  components : List Component
  attributes : List AttrRecord
  tags : List TagRecord
deriving DecidableEq, Repr

/-- Embeds the SQL half of `upsert_components`: the three payload
lists are upserted in order into their tables, then committed. -/
def applyPayload (normTag : String → String) (db : DB) (p : Payload) : DB :=
  ⟨p.components.foldl upsertComp db.components,
   p.attrs.foldl upsertAttr db.attributes,
   p.tags.foldl (insertTag normTag) db.tags⟩

/-- Embeds the per-file loop of `import_dataset` over
(category, rows) file descriptors, also returning the unconsumed
clock samples: an empty file is skipped; otherwise one clock sample
is taken (`datetime.utcnow()` in `upsert_components`), the payloads
are built and committed; an exception stops the run, the uncommitted
current file is rolled back, and `False` is reported. -/
def runAux (normTag : String → String) :
    List (String × List Row) → List Nat → DB → DB × List Nat × Bool
  | [], clock, db => (db, clock, true)
  | (cat, rows) :: rest, clock, db =>
      if rows = [] then runAux normTag rest clock db
      else
        match buildPayloads cat (clock.headD 0) rows with
        | .error _ => (db, clock, false)
        | .ok p => runAux normTag rest clock.tail (applyPayload normTag db p)

/-- Embeds `import_dataset`'s observable outcome: the committed
database and the success flag (exit status). -/
def runImport (normTag : String → String) (files : List (String × List Row))
    (clock : List Nat) (db : DB) : DB × Bool :=
  ((runAux normTag files clock db).1, (runAux normTag files clock db).2.2)

/-- Reset the timestamp of a component record, as a second import run
of the same rows does. -/
def retime (now : Nat) (c : Component) : Component := { c with last_updated := now }

/-! ## Lemmas about the generic upsert -/

/-! ## Lemmas about the generic upsert -/

section UpsertLemmas

set_option linter.unusedSectionVars false

variable {R K I M : Type} [DecidableEq K]
variable {key : R → K} {imm : R → I} {muta : R → M} {mg : R → R → R}

/-- The merge keeps the old row's conflict key. -/
theorem key_mg (L : UpsertLaws key imm muta mg) (r c : R) : key (mg r c) = key r :=
  L.keyimm _ _ (L.immmg r c)

/-- Upserting never removes a key from the table. -/
theorem mem_map_key_upG (L : UpsertLaws key imm muta mg) {T : List R} {k : K} {c : R}
    (h : k ∈ T.map key) : k ∈ (upG key mg T c).map key := by
  induction T with
  | nil => simp at h
  | cons r rest ih =>
      rw [List.map_cons] at h
      simp only [upG]
      by_cases hc : key r = key c
      · rw [if_pos hc, List.map_cons, key_mg L]
        exact h
      · rw [if_neg hc, List.map_cons]
        rcases List.mem_cons.mp h with h' | h'
        · exact h' ▸ List.mem_cons_self _ _
        · exact List.mem_cons_of_mem _ (ih h')

/-- The upserted row's key is in the table afterwards. -/
theorem key_mem_upG (L : UpsertLaws key imm muta mg) (T : List R) (c : R) :
    key c ∈ (upG key mg T c).map key := by
  induction T with
  | nil => simp [upG]
  | cons r rest ih =>
      simp only [upG]
      by_cases hc : key r = key c
      · rw [if_pos hc, List.map_cons, key_mg L, hc]
        exact List.mem_cons_self _ _
      · rw [if_neg hc, List.map_cons]
        exact List.mem_cons_of_mem _ ih

/-- Upserting an already-present key leaves the key column unchanged. -/
theorem map_key_upG_of_mem (L : UpsertLaws key imm muta mg) {T : List R} {c : R}
    (h : key c ∈ T.map key) : (upG key mg T c).map key = T.map key := by
  induction T with
  | nil => simp at h
  | cons r rest ih =>
      rw [List.map_cons] at h
      simp only [upG]
      by_cases hc : key r = key c
      · rw [if_pos hc, List.map_cons, List.map_cons, key_mg L]
      · rw [if_neg hc, List.map_cons, List.map_cons]
        rcases List.mem_cons.mp h with h' | h'
        · exact absurd h'.symm hc
        · rw [ih h']

/-- Upserting a fresh key appends it to the key column. -/
theorem map_key_upG_of_not_mem (L : UpsertLaws key imm muta mg) {T : List R} {c : R}
    (h : key c ∉ T.map key) : (upG key mg T c).map key = T.map key ++ [key c] := by
  induction T with
  | nil => simp [upG]
  | cons r rest ih =>
      simp only [upG]
      have hr : ¬ key r = key c := fun hh => h (by
        rw [List.map_cons, hh]
        exact List.mem_cons_self _ _)
      have h' : key c ∉ rest.map key := fun hm => h (by
        rw [List.map_cons]
        exact List.mem_cons_of_mem _ hm)
      rw [if_neg hr, List.map_cons, List.map_cons, ih h', List.cons_append]

/-- Upserting preserves duplicate-freeness of the key column. -/
theorem nodup_upG (L : UpsertLaws key imm muta mg) {T : List R} {c : R}
    (h : (T.map key).Nodup) : ((upG key mg T c).map key).Nodup := by
  by_cases hm : key c ∈ T.map key
  · rwa [map_key_upG_of_mem L hm]
  · rw [map_key_upG_of_not_mem L hm]
    exact List.Nodup.append h (List.nodup_singleton _)
      (fun a ha hb => hm ((List.mem_singleton.mp hb) ▸ ha))

/-- Folding a payload in preserves duplicate-freeness of the keys. -/
theorem nodup_foldl_upG (L : UpsertLaws key imm muta mg) {T : List R} {P : List R}
    (h : (T.map key).Nodup) : ((List.foldl (upG key mg) T P).map key).Nodup := by
  induction P generalizing T with
  | nil => simpa using h
  | cons p P ih => exact ih (nodup_upG L h)

/-- Keys survive folding a payload in. -/
theorem mem_key_foldl_upG (L : UpsertLaws key imm muta mg) {T : List R} {P : List R}
    {k : K} (h : k ∈ T.map key) : k ∈ (List.foldl (upG key mg) T P).map key := by
  induction P generalizing T with
  | nil => simpa using h
  | cons p P ih => exact ih (mem_map_key_upG L h)

/-- Every payload row's key is present after the payload is folded in. -/
theorem payload_mem_key_foldl (L : UpsertLaws key imm muta mg) {T : List R}
    {P : List R} {p : R} (hp : p ∈ P) : key p ∈ (List.foldl (upG key mg) T P).map key := by
  induction P generalizing T with
  | nil => simp at hp
  | cons q Q ih =>
      rw [List.foldl_cons]
      rcases List.mem_cons.mp hp with h | h
      · rw [h]
        exact mem_key_foldl_upG L (key_mem_upG L T q)
      · exact ih h

/-- Lookup at the head's key finds the head. -/
theorem findKey_cons_pos {r : R} {rest : List R} {k : K} (h : key r = k) :
    findKey key (r :: rest) k = some r :=
  List.find?_cons_of_pos _ (by simp [h])

/-- Lookup at another key skips the head. -/
theorem findKey_cons_neg {r : R} {rest : List R} {k : K} (h : ¬ key r = k) :
    findKey key (r :: rest) k = findKey key rest k :=
  List.find?_cons_of_neg _ (by simp [h])

/-- Upserting a row does not disturb lookups at other keys. -/
theorem findKey_upG_ne (L : UpsertLaws key imm muta mg) {T : List R} {c : R} {k : K}
    (h : k ≠ key c) : findKey key (upG key mg T c) k = findKey key T k := by
  induction T with
  | nil =>
      simp only [upG]
      rw [findKey_cons_neg (fun hh => h hh.symm)]
  | cons r rest ih =>
      simp only [upG]
      by_cases hc : key r = key c
      · have h1 : ¬ key (mg r c) = k := by
          rw [key_mg L, hc]
          exact fun hh => h hh.symm
        have h2 : ¬ key r = k := by
          rw [hc]
          exact fun hh => h hh.symm
        rw [if_pos hc, findKey_cons_neg h1, findKey_cons_neg h2]
      · by_cases hk : key r = k
        · rw [if_neg hc, findKey_cons_pos hk, findKey_cons_pos hk]
        · rw [if_neg hc, findKey_cons_neg hk, findKey_cons_neg hk]
          exact ih

/-- After an upsert, looking up the upserted key finds a row whose
mutable part is the new row's. -/
theorem findKey_upG_self (L : UpsertLaws key imm muta mg) (T : List R) (c : R) :
    ∃ r, findKey key (upG key mg T c) (key c) = some r ∧ muta r = muta c := by
  induction T with
  | nil =>
      refine ⟨c, ?_, rfl⟩
      simp only [upG]
      exact findKey_cons_pos rfl
  | cons r rest ih =>
      simp only [upG]
      by_cases hc : key r = key c
      · refine ⟨mg r c, ?_, L.mutmg r c⟩
        rw [if_pos hc]
        exact findKey_cons_pos (by rw [key_mg L, hc])
      · obtain ⟨r', hr', hm'⟩ := ih
        refine ⟨r', ?_, hm'⟩
        rw [if_neg hc, findKey_cons_neg hc]
        exact hr'

/-- Lookups at keys a payload does not carry are unchanged by folding
the payload in. -/
theorem findKey_foldl_nmem (L : UpsertLaws key imm muta mg) {T : List R} {P : List R}
    {k : K} (h : k ∉ P.map key) :
    findKey key (List.foldl (upG key mg) T P) k = findKey key T k := by
  induction P generalizing T with
  | nil => rfl
  | cons p P ih =>
      have h1 : k ≠ key p := fun hh => h (by
        rw [List.map_cons, hh]
        exact List.mem_cons_self _ _)
      have h2 : k ∉ P.map key := fun hh => h (by
        rw [List.map_cons]
        exact List.mem_cons_of_mem _ hh)
      rw [List.foldl_cons, ih h2, findKey_upG_ne L h1]

/-- An upsert whose merge would reproduce the found row is a no-op. -/
theorem upG_eq_self (L : UpsertLaws key imm muta mg) {T : List R} {c r : R}
    (h : findKey key T (key c) = some r) (hm : mg r c = r) : upG key mg T c = T := by
  induction T with
  | nil => simp [findKey, List.find?] at h
  | cons r₀ rest ih =>
      simp only [upG]
      by_cases hc : key r₀ = key c
      · rw [if_pos hc]
        have hr : r₀ = r := by
          rw [findKey_cons_pos hc] at h
          exact Option.some.inj h
        rw [← hr] at hm
        rw [hm]
      · rw [if_neg hc]
        have h' : findKey key rest (key c) = some r := by
          rwa [findKey_cons_neg hc] at h
        rw [ih h']

/-- Alignment is reflexive. -/
theorem aligned_refl (imm : R → I) (key : R → K) (D : List K) (T : List R) :
    Aligned imm key D T T := by
  induction T with
  | nil => exact .nil
  | cons r T ih => exact .cons rfl (fun _ => rfl) ih

/-- Aligned tables with an uninhabited difference set are equal. -/
theorem aligned_eq_of_false {D : List K} {T T' : List R}
    (h : Aligned imm key D T T') (hD : ∀ d ∈ D, False) : T = T' := by
  induction h with
  | nil => rfl
  | cons him hcond _ ih =>
      rw [hcond (fun hin => hD _ hin), ih]

/-- A key absent from the table can be dropped from the difference set. -/
theorem aligned_filter {D : List K} {T T' : List R} {kc : K}
    (h : Aligned imm key D T T') (hk : kc ∉ T.map key) :
    Aligned imm key (D.filter (fun d => decide (d ≠ kc))) T T' := by
  induction h with
  | nil => exact .nil
  | @cons r r' T T' him hcond htail ih =>
      have hr : ¬ key r = kc := fun hh => hk (by
        rw [List.map_cons, hh]
        exact List.mem_cons_self _ _)
      have hk' : kc ∉ T.map key := fun hm => hk (by
        rw [List.map_cons]
        exact List.mem_cons_of_mem _ hm)
      refine .cons him (fun hin => hcond fun hD => hin ?_) (ih hk')
      rw [List.mem_filter]
      exact ⟨hD, by simp [hr]⟩

/-- Upserting the same row into two aligned tables keeps them aligned
and resolves the difference at the upserted key. -/
theorem aligned_upG (L : UpsertLaws key imm muta mg) {D : List K} {T T' : List R} {c : R}
    (h : Aligned imm key D T T') (hnd : (T.map key).Nodup) :
    Aligned imm key (D.filter (fun d => decide (d ≠ key c)))
      (upG key mg T c) (upG key mg T' c) := by
  induction h with
  | nil => exact .cons rfl (fun _ => rfl) .nil
  | @cons r r' T T' him hcond htail ih =>
      rw [List.map_cons] at hnd
      have hndT : (T.map key).Nodup := (List.nodup_cons.mp hnd).2
      have hrT : key r ∉ T.map key := (List.nodup_cons.mp hnd).1
      have hkr : key r = key r' := L.keyimm _ _ him
      by_cases hc : key r = key c
      · have hc' : key r' = key c := by rw [← hkr]; exact hc
        simp only [upG, if_pos hc, if_pos hc']
        have heq : mg r c = mg r' c :=
          L.ext _ _ (by rw [L.immmg, L.immmg]; exact him) (by rw [L.mutmg, L.mutmg])
        refine .cons (by rw [L.immmg, L.immmg]; exact him) (fun _ => heq) ?_
        exact aligned_filter htail (hc ▸ hrT)
      · have hc' : ¬ key r' = key c := fun hh => hc (by rw [hkr]; exact hh)
        simp only [upG, if_neg hc, if_neg hc']
        refine .cons him (fun hin => hcond fun hD => hin ?_) (ih hndT)
        rw [List.mem_filter]
        exact ⟨hD, by simp [hc]⟩

/-- Folding a payload that covers every difference key into two
aligned tables yields the same table. -/
theorem aligned_sync (L : UpsertLaws key imm muta mg) {D : List K} {T T' : List R}
    {P : List R} (h : Aligned imm key D T T') (hnd : (T.map key).Nodup)
    (hD : ∀ d ∈ D, d ∈ P.map key) :
    List.foldl (upG key mg) T P = List.foldl (upG key mg) T' P := by
  induction P generalizing D T T' with
  | nil =>
      refine aligned_eq_of_false h (fun d hd => ?_)
      simpa using hD d hd
  | cons c P ih =>
      simp only [List.foldl_cons]
      refine ih (aligned_upG L h hnd) (nodup_upG L hnd) ?_
      intro d hd
      rcases List.mem_filter.mp hd with ⟨hdD, hne⟩
      have hd' := hD d hdD
      rw [List.map_cons] at hd'
      rcases List.mem_cons.mp hd' with h' | h'
      · exact absurd h' (by simpa using hne)
      · exact h'

/-- Re-upserting a row whose key is present aligns the result with
the original table, differing at most at that key. -/
theorem aligned_upG_self (L : UpsertLaws key imm muta mg) {T : List R} {p : R}
    (h : key p ∈ T.map key) : Aligned imm key [key p] (upG key mg T p) T := by
  induction T with
  | nil => simp at h
  | cons r rest ih =>
      rw [List.map_cons] at h
      simp only [upG]
      by_cases hc : key r = key p
      · rw [if_pos hc]
        refine .cons (L.immmg r p) (fun hin => absurd ?_ hin) (aligned_refl imm key _ rest)
        rw [key_mg L, hc]
        exact List.mem_singleton.mpr rfl
      · rw [if_neg hc]
        rcases List.mem_cons.mp h with h' | h'
        · exact absurd h'.symm hc
        · exact .cons rfl (fun _ => rfl) (ih h')

/-- Applying the same payload twice is the same as applying it once:
the generic idempotence behind claim C3. -/
theorem foldl_upG_self (L : UpsertLaws key imm muta mg) {T : List R} {P : List R}
    (hnd : (T.map key).Nodup) :
    List.foldl (upG key mg) (List.foldl (upG key mg) T P) P =
      List.foldl (upG key mg) T P := by
  induction P generalizing T with
  | nil => rfl
  | cons p P ih =>
      simp only [List.foldl_cons]
      have hndS : ((List.foldl (upG key mg) (upG key mg T p) P).map key).Nodup :=
        nodup_foldl_upG L (nodup_upG L hnd)
      have hIH : List.foldl (upG key mg) (List.foldl (upG key mg) (upG key mg T p) P) P =
          List.foldl (upG key mg) (upG key mg T p) P := ih (nodup_upG L hnd)
      by_cases hp : key p ∈ P.map key
      · have halign : Aligned imm key [key p]
            (upG key mg (List.foldl (upG key mg) (upG key mg T p) P) p)
            (List.foldl (upG key mg) (upG key mg T p) P) :=
          aligned_upG_self L (mem_key_foldl_upG L (key_mem_upG L T p))
        calc List.foldl (upG key mg)
              (upG key mg (List.foldl (upG key mg) (upG key mg T p) P) p) P
            = List.foldl (upG key mg) (List.foldl (upG key mg) (upG key mg T p) P) P := by
              refine aligned_sync L halign (nodup_upG L hndS) (fun d hd => ?_)
              rcases List.mem_singleton.mp hd with rfl
              exact hp
          _ = List.foldl (upG key mg) (upG key mg T p) P := hIH
      · obtain ⟨r, hr, hmr⟩ := findKey_upG_self L T p
        have hfind : findKey key (List.foldl (upG key mg) (upG key mg T p) P) (key p) =
            some r := by
          rw [findKey_foldl_nmem L hp]
          exact hr
        have hmg : mg r p = r := by
          refine L.ext _ _ (L.immmg r p) ?_
          rw [L.mutmg, hmr]
        rw [upG_eq_self L hfind hmg, hIH]

end UpsertLemmas

/-! ## The concrete tables satisfy the upsert laws -/

/-- The components table (timestamp-erased) satisfies the upsert laws:
`id`, `category`, `name` are immutable, the rest is mutable. -/
theorem compELaws : UpsertLaws ComponentE.id (fun c => (c.id, c.category, c.name))
    (fun c => (c.brand, c.price, c.previous_price, c.image_url, c.product_url,
               c.in_stock, c.stock_units)) mergeCompE := by
  refine ⟨?_, ?_, ?_, ?_⟩
  · intro r r' h
    exact congrArg (fun t => t.1) h
  · intro r c
    rfl
  · intro r c
    rfl
  · intro r r' h1 h2
    cases r
    cases r'
    simp_all

/-- The attributes table satisfies the upsert laws: the key pair is
immutable, the value is mutable. -/
theorem attrLaws : UpsertLaws (fun a : AttrRecord => (a.component_id, a.attribute_key))
    (fun a => (a.component_id, a.attribute_key)) (fun a => a.attribute_value)
    (fun old c => { old with attribute_value := c.attribute_value }) := by
  refine ⟨fun _ _ h => h, fun _ _ => rfl, fun _ _ => rfl, ?_⟩
  intro r r' h1 h2
  cases r
  cases r'
  simp_all

/-! ## Timestamp erasure commutes with the components upsert -/

/-- Erasing timestamps commutes with the component merge. -/
theorem eraseTs_mergeComp (r c : Component) :
    eraseTs (mergeComp r c) = mergeCompE (eraseTs r) (eraseTs c) := rfl

/-- Erasing timestamps is invariant under retiming. -/
theorem eraseTs_retime (n : Nat) (c : Component) : eraseTs (retime n c) = eraseTs c := rfl

/-- Erasing timestamps commutes with one component upsert. -/
theorem map_eraseTs_upsertComp (T : List Component) (c : Component) :
    (upsertComp T c).map eraseTs = upsertCompE (T.map eraseTs) (eraseTs c) := by
  induction T with
  | nil => rfl
  | cons r rest ih =>
      simp only [upsertComp, upsertCompE, upG, List.map_cons] at *
      by_cases hc : r.id = c.id
      · have hc' : (eraseTs r).id = (eraseTs c).id := hc
        rw [if_pos hc, if_pos hc', List.map_cons]
        rfl
      · have hc' : ¬ (eraseTs r).id = (eraseTs c).id := hc
        rw [if_neg hc, if_neg hc', List.map_cons, ih]

/-- Erasing timestamps commutes with folding a component payload in. -/
theorem map_eraseTs_foldl (T : List Component) (P : List Component) :
    (P.foldl upsertComp T).map eraseTs =
      (P.map eraseTs).foldl upsertCompE (T.map eraseTs) := by
  induction P generalizing T with
  | nil => rfl
  | cons p P ih =>
      rw [List.foldl_cons, List.map_cons, List.foldl_cons, ih, map_eraseTs_upsertComp]

/-! ## The tags insert ignores present keys -/

/-- After inserting a tag, its key is present. -/
theorem insertTag_mem (normTag : String → String) (T : List TagRecord) (t : TagRecord) :
    tagKey normTag t ∈ (insertTag normTag T t).map (tagKey normTag) := by
  unfold insertTag
  by_cases h : tagKey normTag t ∈ T.map (tagKey normTag)
  · rwa [if_pos h]
  · rw [if_neg h, List.map_append]
    exact List.mem_append_right _ (by simp)

/-- Inserting a tag preserves present keys. -/
theorem insertTag_mem_mono {normTag : String → String} {T : List TagRecord}
    {k : String × String} (t : TagRecord) (h : k ∈ T.map (tagKey normTag)) :
    k ∈ (insertTag normTag T t).map (tagKey normTag) := by
  unfold insertTag
  by_cases h' : tagKey normTag t ∈ T.map (tagKey normTag)
  · rwa [if_pos h']
  · rw [if_neg h', List.map_append]
    exact List.mem_append_left _ h

/-- Keys stay present while a tag payload is folded in. -/
theorem mem_foldl_insertTag {normTag : String → String} {T : List TagRecord}
    {P : List TagRecord} {k : String × String} (h : k ∈ T.map (tagKey normTag)) :
    k ∈ ((P.foldl (insertTag normTag) T).map (tagKey normTag)) := by
  induction P generalizing T with
  | nil => simpa using h
  | cons p P ih => exact ih (insertTag_mem_mono p h)

/-- Every payload tag's key is present after the payload is folded in. -/
theorem payload_mem_foldl_insertTag {normTag : String → String} {T : List TagRecord}
    {P : List TagRecord} {t : TagRecord} (ht : t ∈ P) :
    tagKey normTag t ∈ ((P.foldl (insertTag normTag) T).map (tagKey normTag)) := by
  induction P generalizing T with
  | nil => simp at ht
  | cons q Q ih =>
      rw [List.foldl_cons]
      rcases List.mem_cons.mp ht with h | h
      · rw [h]
        exact mem_foldl_insertTag (insertTag_mem normTag T q)
      · exact ih h

/-- Inserting a tag whose key is present does nothing. -/
theorem insertTag_of_mem {normTag : String → String} {T : List TagRecord}
    {t : TagRecord} (h : tagKey normTag t ∈ T.map (tagKey normTag)) :
    insertTag normTag T t = T := by
  unfold insertTag
  rw [if_pos h]

/-- Folding in a tag payload whose keys are all present does nothing. -/
theorem foldl_insertTag_noop {normTag : String → String} {T : List TagRecord}
    {P : List TagRecord} (h : ∀ t ∈ P, tagKey normTag t ∈ T.map (tagKey normTag)) :
    P.foldl (insertTag normTag) T = T := by
  induction P with
  | nil => rfl
  | cons p P ih =>
      rw [List.foldl_cons, insertTag_of_mem (h p (List.mem_cons_self _ _))]
      exact ih (fun t ht => h t (List.mem_cons_of_mem _ ht))

/-- Folding the same tag payload in twice equals folding it once. -/
theorem foldl_insertTag_self (normTag : String → String) (T : List TagRecord)
    (P : List TagRecord) :
    P.foldl (insertTag normTag) (P.foldl (insertTag normTag) T) =
      P.foldl (insertTag normTag) T :=
  foldl_insertTag_noop (fun _ ht => payload_mem_foldl_insertTag ht)

/-! ## The clock sample only enters the component timestamps -/

/-- Changing the clock sample retimes the produced component and
changes nothing else about a processed row. -/
theorem processRow_now (cat : String) (now now' : Nat) (raw : Row) :
    processRow cat now raw =
      Except.map (Option.map (fun ro : RowOut => (retime now ro.1, ro.2)))
        (processRow cat now' raw) := by
  unfold processRow processRowN
  cases dictGet (normalizeRow raw) "name" with
  | none => rfl
  | some cell =>
      cases cell with
      | none => rfl
      | some name =>
          dsimp only
          by_cases hn : name = ""
          · rw [if_pos hn, if_pos hn]
            rfl
          · rw [if_neg hn, if_neg hn]
            cases parsePrice (dictGet (normalizeRow raw) "price") with
            | none => rfl
            | some price =>
                cases parsePrice (dictGet (normalizeRow raw) "previous_price") with
                | none => rfl
                | some pprice =>
                    cases parseStock (dictGet (normalizeRow raw) "stock_units") with
                    | none => rfl
                    | some stock => rfl

/-- A later run's payload is the earlier run's payload with the
component timestamps reset; attributes and tags are unchanged. -/
theorem buildPayloads_now (cat : String) (now now' : Nat) (rows : List Row) :
    buildPayloads cat now rows =
      Except.map (fun p => Payload.mk (p.components.map (retime now)) p.attrs p.tags)
        (buildPayloads cat now' rows) := by
  induction rows with
  | nil => rfl
  | cons r rest ih =>
      simp only [buildPayloads]
      rw [processRow_now cat now now' r, ih]
      cases processRow cat now' r with
      | error e => rfl
      | ok res =>
          cases buildPayloads cat now' rest with
          | error e =>
              cases res with
              | none => rfl
              | some out => rfl
          | ok p =>
              cases res with
              | none => rfl
              | some out =>
                  obtain ⟨c, as, ts⟩ := out
                  rfl

/-! ## Claim C3: re-import idempotence -/

/-- C3: importing the same CSV rows twice is idempotent. Given a
database whose component ids and attribute keys are duplicate-free
(the primary-key and uniqueness constraints), a second import of the
identical rows leaves the attributes and tags tables exactly equal,
and the components table equal up to the `last_updated` timestamp, in
particular with identical row counts and no new duplicates. -/
theorem c3_reimport_idempotent (normTag : String → String) (cat : String)
    (rows : List Row) (now1 now2 : Nat) (db : DB) (P1 P2 : Payload)
    (hnd : (db.components.map Component.id).Nodup)
    (hnda : (db.attributes.map (fun a => (a.component_id, a.attribute_key))).Nodup)
    (h1 : buildPayloads cat now1 rows = .ok P1)
    (h2 : buildPayloads cat now2 rows = .ok P2) :
    (applyPayload normTag (applyPayload normTag db P1) P2).attributes =
        (applyPayload normTag db P1).attributes ∧
    (applyPayload normTag (applyPayload normTag db P1) P2).tags =
        (applyPayload normTag db P1).tags ∧
    (applyPayload normTag (applyPayload normTag db P1) P2).components.map eraseTs =
        (applyPayload normTag db P1).components.map eraseTs ∧
    (applyPayload normTag (applyPayload normTag db P1) P2).components.length =
        (applyPayload normTag db P1).components.length := by
  have hP2 : P2 = ⟨P1.components.map (retime now2), P1.attrs, P1.tags⟩ := by
    rw [buildPayloads_now cat now2 now1 rows, h1] at h2
    simpa [Except.map] using h2.symm
  subst hP2
  have hattr : (applyPayload normTag (applyPayload normTag db P1)
      ⟨P1.components.map (retime now2), P1.attrs, P1.tags⟩).attributes =
      (applyPayload normTag db P1).attributes := by
    simp only [applyPayload]
    exact foldl_upG_self attrLaws hnda
  have htag : (applyPayload normTag (applyPayload normTag db P1)
      ⟨P1.components.map (retime now2), P1.attrs, P1.tags⟩).tags =
      (applyPayload normTag db P1).tags := by
    simp only [applyPayload]
    exact foldl_insertTag_self normTag db.tags P1.tags
  have hcomp : (applyPayload normTag (applyPayload normTag db P1)
      ⟨P1.components.map (retime now2), P1.attrs, P1.tags⟩).components.map eraseTs =
      (applyPayload normTag db P1).components.map eraseTs := by
    simp only [applyPayload]
    rw [map_eraseTs_foldl, map_eraseTs_foldl]
    have hretime : (P1.components.map (retime now2)).map eraseTs =
        P1.components.map eraseTs := by
      rw [List.map_map]
      rfl
    rw [hretime]
    refine foldl_upG_self compELaws ?_
    have hid : (db.components.map eraseTs).map ComponentE.id =
        db.components.map Component.id := by
      rw [List.map_map]
      rfl
    rw [hid]
    exact hnd
  refine ⟨hattr, htag, hcomp, ?_⟩
  have := congrArg List.length hcomp
  rwa [List.length_map, List.length_map] at this

/-- Witness for C3 at a concrete one-row file imported twice into an
empty database. -/
theorem c3_reimport_idempotent_witness :
    (applyPayload id (applyPayload id ⟨[], [], []⟩
        ⟨[⟨"c7c3b148b825dee1f6827d0005de5bf750eca48d", "CPU", "a", none, none, none,
           none, none, some true, 0, 0⟩], [],
         [⟨"c7c3b148b825dee1f6827d0005de5bf750eca48d", "CPU"⟩]⟩)
        ⟨[⟨"c7c3b148b825dee1f6827d0005de5bf750eca48d", "CPU", "a", none, none, none,
           none, none, some true, 0, 1⟩], [],
         [⟨"c7c3b148b825dee1f6827d0005de5bf750eca48d", "CPU"⟩]⟩).attributes =
      (applyPayload id ⟨[], [], []⟩
        ⟨[⟨"c7c3b148b825dee1f6827d0005de5bf750eca48d", "CPU", "a", none, none, none,
           none, none, some true, 0, 0⟩], [],
         [⟨"c7c3b148b825dee1f6827d0005de5bf750eca48d", "CPU"⟩]⟩).attributes ∧
    (applyPayload id (applyPayload id ⟨[], [], []⟩
        ⟨[⟨"c7c3b148b825dee1f6827d0005de5bf750eca48d", "CPU", "a", none, none, none,
           none, none, some true, 0, 0⟩], [],
         [⟨"c7c3b148b825dee1f6827d0005de5bf750eca48d", "CPU"⟩]⟩)
        ⟨[⟨"c7c3b148b825dee1f6827d0005de5bf750eca48d", "CPU", "a", none, none, none,
           none, none, some true, 0, 1⟩], [],
         [⟨"c7c3b148b825dee1f6827d0005de5bf750eca48d", "CPU"⟩]⟩).tags =
      (applyPayload id ⟨[], [], []⟩
        ⟨[⟨"c7c3b148b825dee1f6827d0005de5bf750eca48d", "CPU", "a", none, none, none,
           none, none, some true, 0, 0⟩], [],
         [⟨"c7c3b148b825dee1f6827d0005de5bf750eca48d", "CPU"⟩]⟩).tags ∧
    (applyPayload id (applyPayload id ⟨[], [], []⟩
        ⟨[⟨"c7c3b148b825dee1f6827d0005de5bf750eca48d", "CPU", "a", none, none, none,
           none, none, some true, 0, 0⟩], [],
         [⟨"c7c3b148b825dee1f6827d0005de5bf750eca48d", "CPU"⟩]⟩)
        ⟨[⟨"c7c3b148b825dee1f6827d0005de5bf750eca48d", "CPU", "a", none, none, none,
           none, none, some true, 0, 1⟩], [],
         [⟨"c7c3b148b825dee1f6827d0005de5bf750eca48d", "CPU"⟩]⟩).components.map eraseTs =
      (applyPayload id ⟨[], [], []⟩
        ⟨[⟨"c7c3b148b825dee1f6827d0005de5bf750eca48d", "CPU", "a", none, none, none,
           none, none, some true, 0, 0⟩], [],
         [⟨"c7c3b148b825dee1f6827d0005de5bf750eca48d", "CPU"⟩]⟩).components.map eraseTs ∧
    (applyPayload id (applyPayload id ⟨[], [], []⟩
        ⟨[⟨"c7c3b148b825dee1f6827d0005de5bf750eca48d", "CPU", "a", none, none, none,
           none, none, some true, 0, 0⟩], [],
         [⟨"c7c3b148b825dee1f6827d0005de5bf750eca48d", "CPU"⟩]⟩)
        ⟨[⟨"c7c3b148b825dee1f6827d0005de5bf750eca48d", "CPU", "a", none, none, none,
           none, none, some true, 0, 1⟩], [],
         [⟨"c7c3b148b825dee1f6827d0005de5bf750eca48d", "CPU"⟩]⟩).components.length =
      (applyPayload id ⟨[], [], []⟩
        ⟨[⟨"c7c3b148b825dee1f6827d0005de5bf750eca48d", "CPU", "a", none, none, none,
           none, none, some true, 0, 0⟩], [],
         [⟨"c7c3b148b825dee1f6827d0005de5bf750eca48d", "CPU"⟩]⟩).components.length :=
  c3_reimport_idempotent id "CPU" [[("name", some "a")]] 0 1 ⟨[], [], []⟩ _ _
    List.nodup_nil List.nodup_nil (by rfl) (by rfl)

/-! ## Inversion of per-row processing -/

/-- Truthiness holds exactly for a present, non-`None`, nonempty cell. -/
theorem cellTruthy_true_iff (c : Option Cell) :
    cellTruthy c = true ↔ ∃ s, c = some (some s) ∧ ¬ s = "" := by
  cases c with
  | none => simp [cellTruthy]
  | some cell =>
      cases cell with
      | none => simp [cellTruthy]
      | some s => simp [cellTruthy]

/-- A row whose name cell is not truthy is skipped: it produces no
records and no error. -/
theorem processRow_skip {cat : String} {now : Nat} {raw : Row}
    (h : cellTruthy (dictGet (normalizeRow raw) "name") = false) :
    processRow cat now raw = .ok none := by
  unfold processRow processRowN
  cases hg : dictGet (normalizeRow raw) "name" with
  | none => rfl
  | some cell =>
      cases cell with
      | none => rfl
      | some name =>
          rw [hg] at h
          simp only [cellTruthy, decide_eq_false_iff_not, not_not] at h
          dsimp only
          rw [if_pos h]

/-- Inversion of an accepted row: the exact shape of the component,
attribute and tag records the source assembles. -/
theorem processRow_ok_inv {cat : String} {now : Nat} {raw : Row} {comp : Component}
    {attrs : List AttrRecord} {tags : List TagRecord}
    (h : processRow cat now raw = .ok (some (comp, attrs, tags))) :
    ∃ name price pprice stock,
      dictGet (normalizeRow raw) "name" = some (some name) ∧ ¬ name = "" ∧
      parsePrice (dictGet (normalizeRow raw) "price") = some price ∧
      parsePrice (dictGet (normalizeRow raw) "previous_price") = some pprice ∧
      parseStock (dictGet (normalizeRow raw) "stock_units") = some stock ∧
      comp = { id := hash_component_id cat name (rowProductUrl (normalizeRow raw)),
               category := cat, name := name, brand := rowBrand (normalizeRow raw),
               price := price, previous_price := pprice,
               image_url := (dictGet (normalizeRow raw) "image_url").join,
               product_url := if rowProductUrl (normalizeRow raw) = "" then none
                              else some (rowProductUrl (normalizeRow raw)),
               in_stock := rowInStock (normalizeRow raw),
               stock_units := stock, last_updated := now } ∧
      attrs = attrsOf (hash_component_id cat name (rowProductUrl (normalizeRow raw)))
                (normalizeRow raw) ∧
      tags = (rowTags (rowBrand (normalizeRow raw)) cat).map
               (fun t => ⟨hash_component_id cat name (rowProductUrl (normalizeRow raw)), t⟩) := by
  unfold processRow processRowN at h
  cases hg : dictGet (normalizeRow raw) "name" with
  | none =>
      rw [hg] at h
      simp at h
  | some cell =>
      cases cell with
      | none =>
          rw [hg] at h
          simp at h
      | some name =>
          rw [hg] at h
          dsimp only at h
          by_cases hn : name = ""
          · rw [if_pos hn] at h
            simp at h
          · rw [if_neg hn] at h
            cases hp : parsePrice (dictGet (normalizeRow raw) "price") with
            | none => rw [hp] at h; simp at h
            | some price =>
                rw [hp] at h
                cases hpp : parsePrice (dictGet (normalizeRow raw) "previous_price") with
                | none => rw [hpp] at h; simp at h
                | some pprice =>
                    rw [hpp] at h
                    cases hs : parseStock (dictGet (normalizeRow raw) "stock_units") with
                    | none => rw [hs] at h; simp at h
                    | some stock =>
                        rw [hs] at h
                        dsimp only at h
                        simp only [Except.ok.injEq, Option.some.injEq,
                          Prod.mk.injEq] at h
                        exact ⟨name, price, pprice, stock, rfl, hn, rfl, rfl, rfl,
                          h.1.symm, h.2.1.symm, h.2.2.symm⟩

/-! ## Claim C1: the id is the SHA-1 of category, name and url -/

/-- C1: the component id is the pure function
`sha1-hex (utf8 (category ++ pipe ++ name ++ pipe ++ url))` of the
triple, and every accepted row's component carries exactly that id,
with the url position holding the empty string when the stored
`product_url` is null. Purity is by construction: `hash_component_id`
is a mathematical function, so equal triples give equal ids. -/
theorem c1_id_is_sha1 :
    (∀ category name url, hash_component_id category name url =
        sha1Hex (strUtf8 (category ++ "|" ++ name ++ "|" ++ url))) ∧
    (∀ cat now raw comp attrs tags,
        processRow cat now raw = .ok (some (comp, attrs, tags)) →
        comp.id = sha1Hex (strUtf8 (cat ++ "|" ++ comp.name ++ "|" ++
          comp.product_url.getD ""))) := by
  constructor
  · intro c n u
    rfl
  · intro cat now raw comp attrs tags h
    obtain ⟨name, price, pprice, stock, hg, hn, hp, hpp, hs, hcomp, _, _⟩ :=
      processRow_ok_inv h
    subst hcomp
    by_cases hu : rowProductUrl (normalizeRow raw) = ""
    · simp only [hu, if_pos]
      rw [show (none : Option String).getD "" = "" from rfl]
      rw [show hash_component_id cat name "" =
        sha1Hex (strUtf8 (cat ++ "|" ++ name ++ "|" ++ "")) from rfl]
    · rw [if_neg hu]
      rfl

/-- Witness for C1 at a concrete accepted row. -/
theorem c1_id_is_sha1_witness :
    ({ id := "c7c3b148b825dee1f6827d0005de5bf750eca48d", category := "CPU", name := "a",
       brand := none, price := none, previous_price := none, image_url := none,
       product_url := none, in_stock := some true, stock_units := 0,
       last_updated := 0 } : Component).id =
      sha1Hex (strUtf8 ("CPU" ++ "|" ++
        ({ id := "c7c3b148b825dee1f6827d0005de5bf750eca48d", category := "CPU",
           name := "a", brand := none, price := none, previous_price := none,
           image_url := none, product_url := none, in_stock := some true,
           stock_units := 0, last_updated := 0 } : Component).name ++ "|" ++
        ({ id := "c7c3b148b825dee1f6827d0005de5bf750eca48d", category := "CPU",
           name := "a", brand := none, price := none, previous_price := none,
           image_url := none, product_url := none, in_stock := some true,
           stock_units := 0, last_updated := 0 } : Component).product_url.getD "")) :=
  c1_id_is_sha1.2 "CPU" 0 [("name", some "a")] _ [] _ (by rfl)

/-! ## Claim C7: nameless rows are silently dropped -/

/-- C7: a row whose normalized name is missing, `None` or empty
contributes nothing: the payloads of the file with that row are
exactly the payloads of the file without it, and no error is
raised. -/
theorem c7_nameless_rows_dropped (cat : String) (now : Nat) (rows1 rows2 : List Row)
    (bad : Row) (h : cellTruthy (dictGet (normalizeRow bad) "name") = false) :
    buildPayloads cat now (rows1 ++ bad :: rows2) = buildPayloads cat now (rows1 ++ rows2) := by
  have hskip : processRow cat now bad = .ok none := processRow_skip h
  induction rows1 with
  | nil =>
      simp only [List.nil_append, buildPayloads, hskip]
      cases buildPayloads cat now rows2 with
      | error e => rfl
      | ok p => rfl
  | cons r rows1 ih =>
      simp only [List.cons_append, buildPayloads]
      rw [show List.append rows1 (bad :: rows2) = rows1 ++ bad :: rows2 from rfl,
        show List.append rows1 rows2 = rows1 ++ rows2 from rfl, ih]

/-- Witness for C7: a row with an empty name between two real rows. -/
theorem c7_nameless_rows_dropped_witness :
    buildPayloads "CPU" 0 [[("name", some "a")], [("name", some " "), ("brand", some "z")],
        [("name", some "b")]] =
      buildPayloads "CPU" 0 [[("name", some "a")], [("name", some "b")]] :=
  c7_nameless_rows_dropped "CPU" 0 [[("name", some "a")]] [[("name", some "b")]]
    [("name", some " "), ("brand", some "z")] (by rfl)

/-! ## Claim C9: payloads are referentially closed per file -/

/-- Every attribute record a row produces carries that row's id. -/
theorem attrsOf_component_id {cid : String} {normalized : Row} {a : AttrRecord}
    (ha : a ∈ attrsOf cid normalized) : a.component_id = cid := by
  unfold attrsOf at ha
  rcases List.mem_filterMap.mp ha with ⟨kv, _, hkv⟩
  by_cases h1 : kv.1 ∈ STANDARD_FIELDS
  · rw [if_pos h1] at hkv
    simp at hkv
  · rw [if_neg h1] at hkv
    cases hv : kv.2 with
    | none =>
        rw [hv] at hkv
        simp at hkv
    | some v =>
        rw [hv] at hkv
        dsimp only at hkv
        by_cases h2 : v = ""
        · rw [if_pos h2] at hkv
          simp at hkv
        · rw [if_neg h2] at hkv
          injection hkv with hkv
          rw [← hkv]

/-- C9: in the payloads built from one file, every attribute record
and every tag record references the id of a component built from the
same file in the same call. -/
theorem c9_referential_closure (cat : String) (now : Nat) (rows : List Row) (P : Payload)
    (h : buildPayloads cat now rows = .ok P) :
    (∀ a ∈ P.attrs, ∃ c ∈ P.components, a.component_id = c.id) ∧
    (∀ t ∈ P.tags, ∃ c ∈ P.components, t.component_id = c.id) := by
  induction rows generalizing P with
  | nil =>
      simp only [buildPayloads, Except.ok.injEq] at h
      rw [← h]
      exact ⟨by simp, by simp⟩
  | cons r rest ih =>
      simp only [buildPayloads] at h
      cases hr : processRow cat now r with
      | error e =>
          rw [hr] at h
          simp at h
      | ok res =>
          rw [hr] at h
          cases hb : buildPayloads cat now rest with
          | error e =>
              rw [hb] at h
              simp at h
          | ok p =>
              rw [hb] at h
              obtain ⟨ihA, ihT⟩ := ih p hb
              cases res with
              | none =>
                  simp only [Except.ok.injEq] at h
                  rw [← h]
                  exact ⟨ihA, ihT⟩
              | some out =>
                  obtain ⟨c, as, ts⟩ := out
                  simp only [Except.ok.injEq] at h
                  obtain ⟨name, price, pprice, stock, _, _, _, _, _, hcomp, hattrs, htags⟩ :=
                    processRow_ok_inv hr
                  rw [← h]
                  constructor
                  · intro a ha
                    rcases List.mem_append.mp ha with haL | haR
                    · refine ⟨c, List.mem_cons_self _ _, ?_⟩
                      rw [hattrs] at haL
                      rw [attrsOf_component_id haL, hcomp]
                    · obtain ⟨c', hc', hc'id⟩ := ihA a haR
                      exact ⟨c', List.mem_cons_of_mem _ hc', hc'id⟩
                  · intro t ht
                    rcases List.mem_append.mp ht with htL | htR
                    · refine ⟨c, List.mem_cons_self _ _, ?_⟩
                      rw [htags] at htL
                      rcases List.mem_map.mp htL with ⟨s, _, hs⟩
                      rw [← hs, hcomp]
                    · obtain ⟨c', hc', hc'id⟩ := ihT t htR
                      exact ⟨c', List.mem_cons_of_mem _ hc', hc'id⟩

/-- Witness for C9 on a file with attributes and tags. -/
theorem c9_referential_closure_witness :
    ((buildPayloads "GPU" 7 [[("name", some "RTX 4090"), ("brand", some "NVIDIA"),
        ("price", some "1599.99"), ("url", some "http://x/y"),
        ("wattage", some "450W")]]).toOption.elim True (fun P =>
      (∀ a ∈ P.attrs, ∃ c ∈ P.components, a.component_id = c.id) ∧
      (∀ t ∈ P.tags, ∃ c ∈ P.components, t.component_id = c.id))) := by
  cases hb : buildPayloads "GPU" 7 [[("name", some "RTX 4090"), ("brand", some "NVIDIA"),
      ("price", some "1599.99"), ("url", some "http://x/y"), ("wattage", some "450W")]] with
  | error e => exact trivial
  | ok P =>
      simp only [Except.toOption, Option.elim]
      exact c9_referential_closure "GPU" 7 _ P hb

/-! ## Claim C8: the tag set of one accepted row -/

/-- C8: an accepted row yields exactly the tag set
`{brand, category}` when the brand is present and nonempty and
exactly `{category}` otherwise, never duplicated (also when brand
equals category) and never a third tag. -/
theorem c8_tag_set (cat : String) (now : Nat) (raw : Row) (comp : Component)
    (attrs : List AttrRecord) (tags : List TagRecord)
    (h : processRow cat now raw = .ok (some (comp, attrs, tags))) :
    (tags.map (fun t => t.tag)).Nodup ∧ tags.length ≤ 2 ∧
    (∀ b, comp.brand = some b → ¬ b = "" →
        (tags.map (fun t => t.tag)).toFinset = {b, cat}) ∧
    ((comp.brand = none ∨ comp.brand = some "") →
        (tags.map (fun t => t.tag)).toFinset = {cat}) := by
  obtain ⟨name, price, pprice, stock, _, _, _, _, _, hcomp, _, htags⟩ := processRow_ok_inv h
  have hgen : ∀ (l : List String) (cid : String),
      (l.map (fun t => (⟨cid, t⟩ : TagRecord))).map (fun t => t.tag) = l := by
    intro l cid
    induction l with
    | nil => rfl
    | cons x xs ih =>
        simp only [List.map_cons]
        rw [ih]
  have hmap : tags.map (fun t => t.tag) = rowTags (rowBrand (normalizeRow raw)) cat := by
    rw [htags, hgen]
  have hbrand : comp.brand = rowBrand (normalizeRow raw) := by rw [hcomp]
  have hlen : tags.length = (rowTags (rowBrand (normalizeRow raw)) cat).length := by
    rw [htags, List.length_map]
  rw [hmap, hbrand, hlen]
  cases hb : rowBrand (normalizeRow raw) with
  | none =>
      refine ⟨by simp [rowTags], by simp [rowTags], ?_, ?_⟩
      · intro b hbb
        simp at hbb
      · intro _
        simp [rowTags]
  | some b =>
      by_cases hbe : b = ""
      · subst hbe
        refine ⟨by simp [rowTags], by simp [rowTags], ?_, ?_⟩
        · intro b' hbb hne
          simp only [Option.some.injEq] at hbb
          exact absurd hbb.symm hne
        · intro _
          simp [rowTags]
      · by_cases hbc : b = cat
        · subst hbc
          refine ⟨by simp [rowTags, hbe], by simp [rowTags, hbe], ?_, ?_⟩
          · intro b' hbb _
            simp only [Option.some.injEq] at hbb
            subst hbb
            simp [rowTags, hbe]
          · intro hcases
            rcases hcases with hc | hc
            · simp at hc
            · simp only [Option.some.injEq] at hc
              exact absurd hc hbe
        · refine ⟨by simp [rowTags, hbe, hbc], by simp [rowTags, hbe, hbc], ?_, ?_⟩
          · intro b' hbb _
            simp only [Option.some.injEq] at hbb
            subst hbb
            simp [rowTags, hbe, hbc]
          · intro hcases
            rcases hcases with hc | hc
            · simp at hc
            · simp only [Option.some.injEq] at hc
              exact absurd hc hbe

/-- Witness for C8 at the spec's own example: brand Intel,
category CPU. -/
theorem c8_tag_set_witness :
    (([(⟨"beb773b08d64fdb09d178cfb063a790c6d0639e0", "Intel"⟩ : TagRecord),
       ⟨"beb773b08d64fdb09d178cfb063a790c6d0639e0", "CPU"⟩].map (fun t => t.tag)).toFinset =
      ({"Intel", "CPU"} : Finset String)) :=
  (c8_tag_set "CPU" 0 [("name", some "x"), ("brand", some "Intel")]
    { id := "beb773b08d64fdb09d178cfb063a790c6d0639e0", category := "CPU", name := "x",
      brand := some "Intel", price := none, previous_price := none, image_url := none,
      product_url := none, in_stock := some true, stock_units := 0, last_updated := 0 }
    [] [⟨"beb773b08d64fdb09d178cfb063a790c6d0639e0", "Intel"⟩,
        ⟨"beb773b08d64fdb09d178cfb063a790c6d0639e0", "CPU"⟩]
    (by rfl)).2.2.1 "Intel" rfl (by decide)

/-! ## Claim C2: the in-stock coercion (corrected) -/

/-- Counterexample to C2 as stated: for the present non-boolean value
`"maybe"` the assembled component's `in_stock` is null — it is not
turned into `true` at the component-assembly step. -/
theorem c2_counterexample :
    inStockOf (processRow "CPU" 0 [("name", some "X"), ("in_stock", some "maybe")]) =
      some none ∧ some (none : Option Bool) ≠ some (some true) := by
  constructor
  · rfl
  · simp

/-- C2 (amended): a present truthy `in_stock` value is fed through
`bool_from_value` — affirmative set to `true`, negative set to
`false`, anything else to null, which remains null in the assembled
component — while an absent, `None` or empty value yields `true`
directly. -/
theorem c2_in_stock_amended :
    (∀ v : String,
      (pyLower (pyStrip v) ∈ ["true", "t", "1", "yes", "y", "available", "in stock"] →
          bool_from_value (some v) = some true) ∧
      (pyLower (pyStrip v) ∈ ["false", "f", "0", "no", "n", "out of stock", "unavailable"] →
          bool_from_value (some v) = some false) ∧
      (pyLower (pyStrip v) ∉ ["true", "t", "1", "yes", "y", "available", "in stock"] →
          pyLower (pyStrip v) ∉ ["false", "f", "0", "no", "n", "out of stock", "unavailable"] →
          bool_from_value (some v) = none)) ∧
    (∀ cat now raw comp attrs tags,
      processRow cat now raw = .ok (some (comp, attrs, tags)) →
      (cellTruthy (dictGet (normalizeRow raw) "in_stock") = true →
          comp.in_stock = bool_from_value ((dictGet (normalizeRow raw) "in_stock").join)) ∧
      (cellTruthy (dictGet (normalizeRow raw) "in_stock") = false →
          comp.in_stock = some true)) := by
  constructor
  · intro v
    refine ⟨?_, ?_, ?_⟩
    · intro hmem
      unfold bool_from_value
      dsimp only
      rw [if_pos hmem]
    · intro hmem
      unfold bool_from_value
      have hnot : pyLower (pyStrip v) ∉
          ["true", "t", "1", "yes", "y", "available", "in stock"] := by
        simp only [List.mem_cons, List.mem_singleton, List.not_mem_nil, or_false] at hmem ⊢
        rcases hmem with h | h | h | h | h | h | h <;> rw [h] <;> decide
      dsimp only
      rw [if_neg hnot, if_pos hmem]
    · intro h1 h2
      unfold bool_from_value
      dsimp only
      rw [if_neg h1, if_neg h2]
  · intro cat now raw comp attrs tags h
    obtain ⟨name, price, pprice, stock, _, _, _, _, _, hcomp, _, _⟩ := processRow_ok_inv h
    have hins : comp.in_stock = rowInStock (normalizeRow raw) := by rw [hcomp]
    rw [hins]
    unfold rowInStock
    constructor
    · intro ht
      rw [if_pos ht]
    · intro hf
      rw [if_neg (by rw [hf]; exact Bool.false_ne_true)]

/-- Witness for the amended C2 on the coercion table and on concrete
rows exercising both assembly paths. -/
theorem c2_in_stock_amended_witness :
    bool_from_value (some "Y") = some true ∧
    bool_from_value (some "out of stock") = some false ∧
    bool_from_value (some "maybe") = none ∧
    ({ id := "f6d5627e3c86609e54602ddeb67ef0f35aebe31e", category := "CPU", name := "X",
       brand := none, price := none, previous_price := none, image_url := none,
       product_url := none, in_stock := none, stock_units := 0,
       last_updated := 0 } : Component).in_stock =
      bool_from_value ((dictGet (normalizeRow
        [("name", some "X"), ("in_stock", some "maybe")]) "in_stock").join) ∧
    ({ id := "c7c3b148b825dee1f6827d0005de5bf750eca48d", category := "CPU", name := "a",
       brand := none, price := none, previous_price := none, image_url := none,
       product_url := none, in_stock := some true, stock_units := 0,
       last_updated := 0 } : Component).in_stock = some true :=
  ⟨(c2_in_stock_amended.1 "Y").1 (by decide),
   (c2_in_stock_amended.1 "out of stock").2.1 (by decide),
   (c2_in_stock_amended.1 "maybe").2.2 (by decide) (by decide),
   (c2_in_stock_amended.2 "CPU" 0 [("name", some "X"), ("in_stock", some "maybe")]
     _ _ _ (by rfl)).1 (by rfl),
   (c2_in_stock_amended.2 "CPU" 0 [("name", some "a")] _ _ _ (by rfl)).2 (by rfl)⟩

/-! ## Dict lemmas for claim C10 -/

/-- Lookup finds the head when its key matches. -/
theorem dictGet_cons_pos {kv : String × Cell} {rest : Row} {k : String} (h : kv.1 = k) :
    dictGet (kv :: rest) k = some kv.2 := by
  unfold dictGet
  rw [List.find?_cons_of_pos _ (by simp [h])]
  rfl

/-- Lookup skips the head when its key differs. -/
theorem dictGet_cons_neg {kv : String × Cell} {rest : Row} {k : String} (h : ¬ kv.1 = k) :
    dictGet (kv :: rest) k = dictGet rest k := by
  unfold dictGet
  rw [List.find?_cons_of_neg _ (by simp [h])]

/-- A dict with none of the wanted key yields `none`. -/
theorem dictGet_none_of_no_key {d : Row} {k : String} (h : ∀ kv ∈ d, ¬ kv.1 = k) :
    dictGet d k = none := by
  induction d with
  | nil => rfl
  | cons kv rest ih =>
      rw [dictGet_cons_neg (h kv (List.mem_cons_self _ _))]
      exact ih (fun kv' hkv' => h kv' (List.mem_cons_of_mem _ hkv'))

/-- Appending an entry does not disturb lookups at other keys. -/
theorem dictGet_append_ne {d : Row} {k k' : String} {v : Cell} (h : ¬ k = k') :
    dictGet (d ++ [(k, v)]) k' = dictGet d k' := by
  induction d with
  | nil =>
      rw [List.nil_append, dictGet_cons_neg h]
  | cons kv rest ih =>
      by_cases hk : kv.1 = k'
      · rw [List.cons_append, dictGet_cons_pos hk, dictGet_cons_pos hk]
      · rw [List.cons_append, dictGet_cons_neg hk, dictGet_cons_neg hk, ih]

/-- Appending an entry whose key was absent makes it found. -/
theorem dictGet_append_self {d : Row} {k : String} {v : Cell} (h : dictGet d k = none) :
    dictGet (d ++ [(k, v)]) k = some v := by
  induction d with
  | nil => exact dictGet_cons_pos rfl
  | cons kv rest ih =>
      by_cases hk : kv.1 = k
      · rw [dictGet_cons_pos hk] at h
        simp at h
      · rw [dictGet_cons_neg hk] at h
        rw [List.cons_append, dictGet_cons_neg hk]
        exact ih h

/-- Inserting into a dict only adds the inserted key. -/
theorem mem_dictInsert {d : Row} {k : String} {v : Cell} {kv : String × Cell}
    (h : kv ∈ dictInsert d k v) : kv.1 = k ∨ kv ∈ d := by
  induction d with
  | nil =>
      simp only [dictInsert, List.mem_singleton] at h
      rw [h]
      exact Or.inl rfl
  | cons kv0 rest ih =>
      simp only [dictInsert] at h
      by_cases hk : kv0.1 = k
      · rw [if_pos hk] at h
        rcases List.mem_cons.mp h with h' | h'
        · rw [h']
          exact Or.inl rfl
        · exact Or.inr (List.mem_cons_of_mem _ h')
      · rw [if_neg hk] at h
        rcases List.mem_cons.mp h with h' | h'
        · rw [h']
          exact Or.inr (List.mem_cons_self _ _)
        · rcases ih h' with h'' | h''
          · exact Or.inl h''
          · exact Or.inr (List.mem_cons_of_mem _ h'')

/-- Inserting an absent key is appending it. -/
theorem dictInsert_absent {d : Row} {k : String} {v : Cell} (h : ∀ kv ∈ d, ¬ kv.1 = k) :
    dictInsert d k v = d ++ [(k, v)] := by
  induction d with
  | nil => rfl
  | cons kv0 rest ih =>
      simp only [dictInsert]
      rw [if_neg (h kv0 (List.mem_cons_self _ _)), List.cons_append,
        ih (fun kv' hkv' => h kv' (List.mem_cons_of_mem _ hkv'))]

/-- Every key of the normalized dict is the normalization of some raw
column name. -/
theorem normalizeRow_keys {r : Row} {k : String}
    (h : ∀ kv ∈ r, ¬ normalize_field kv.1 = k) :
    ∀ kv ∈ normalizeRow r, ¬ kv.1 = k := by
  unfold normalizeRow
  have hgen : ∀ (d : Row), (∀ kv ∈ d, ¬ kv.1 = k) →
      ∀ kv ∈ r.foldl (fun d kv =>
        if kv.1 = "" then d else dictInsert d (normalize_field kv.1) (stripCell kv.2)) d,
      ¬ kv.1 = k := by
    induction r with
    | nil => intro d hd kv hkv; exact hd kv hkv
    | cons kv0 rest ih =>
        intro d hd kv hkv
        rw [List.foldl_cons] at hkv
        by_cases h0 : kv0.1 = ""
        · rw [if_pos h0] at hkv
          exact ih (fun kv' hkv' => h kv' (List.mem_cons_of_mem _ hkv')) d hd kv hkv
        · rw [if_neg h0] at hkv
          refine ih (fun kv' hkv' => h kv' (List.mem_cons_of_mem _ hkv')) _ ?_ kv hkv
          intro kv' hkv'
          rcases mem_dictInsert hkv' with h' | h'
          · rw [h']
            exact h kv0 (List.mem_cons_self _ _)
          · exact hd kv' h'
  exact hgen [] (by intro kv hkv; simp at hkv)

/-- Normalizing a row with one extra trailing column inserts that
column's normalized entry into the dict. -/
theorem normalizeRow_append_single (r : Row) (k : String) (v : Cell) (hk : ¬ k = "") :
    normalizeRow (r ++ [(k, v)]) =
      dictInsert (normalizeRow r) (normalize_field k) (stripCell v) := by
  unfold normalizeRow
  rw [List.foldl_append]
  simp only [List.foldl_cons, List.foldl_nil]
  rw [if_neg hk]

/-- No raw column name normalizes to `"url"`: the alias table maps the
url spellings away, so the `or normalized.get("url")` branch of the
source is dead. -/
theorem normalize_field_ne_url (k : String) : ¬ normalize_field k = "url" := by
  unfold normalize_field
  cases hf : ALIAS_MAP.find? (fun p => p.1 = pyLower (pyStrip k)) with
  | some p =>
      dsimp only
      intro hcontra
      have hmem : p ∈ ALIAS_MAP := List.mem_of_find?_eq_some hf
      simp only [ALIAS_MAP, List.mem_cons, List.not_mem_nil, or_false] at hmem
      rcases hmem with h | h | h | h | h | h | h | h | h <;> rw [h] at hcontra <;>
        exact absurd hcontra (by decide)
  | none =>
      dsimp only
      intro hcontra
      have := List.find?_eq_none.mp hf ("url", "product_url") (by decide)
      simp only [decide_eq_true_eq] at this
      exact this hcontra.symm

/-! ## Claim C10: empty url and absent url coincide -/

/-- The extra normalized `product_url` entry with an empty value does
not change the processed row. -/
theorem processRowN_empty_url (cat : String) (now : Nat) (n : Row)
    (habs : ∀ kv ∈ n, ¬ kv.1 = "product_url") :
    processRowN cat now (n ++ [("product_url", some "")]) = processRowN cat now n := by
  have hne : ∀ k : String, ¬ "product_url" = k →
      dictGet (n ++ [("product_url", some "")]) k = dictGet n k :=
    fun k hk => dictGet_append_ne hk
  have hpu : dictGet (n ++ [("product_url", some "")]) "product_url" = some (some "") :=
    dictGet_append_self (dictGet_none_of_no_key habs)
  have hpun : dictGet n "product_url" = none := dictGet_none_of_no_key habs
  have hurl : rowProductUrl (n ++ [("product_url", some "")]) = rowProductUrl n := by
    unfold rowProductUrl
    rw [hpu, hpun, hne "url" (by decide)]
    rfl
  have hbrand : rowBrand (n ++ [("product_url", some "")]) = rowBrand n := by
    unfold rowBrand
    rw [hne "brand" (by decide)]
  have hstock : rowInStock (n ++ [("product_url", some "")]) = rowInStock n := by
    unfold rowInStock
    rw [hne "in_stock" (by decide)]
  have hattrs : ∀ cid, attrsOf cid (n ++ [("product_url", some "")]) = attrsOf cid n := by
    intro cid
    unfold attrsOf
    rw [List.filterMap_append]
    simp [STANDARD_FIELDS]
  unfold processRowN
  simp only [hne "name" (by decide), hne "price" (by decide),
    hne "previous_price" (by decide), hne "stock_units" (by decide),
    hne "image_url" (by decide), hurl, hbrand, hstock, hattrs]

/-- C10: a row whose `product_url` value strips to the empty string
and the same row without the `product_url` column produce the same
processing result; the stored `product_url` is null and the id hashes
the empty string in the url position. -/
theorem c10_empty_url_equals_absent (cat : String) (now : Nat) (r : Row) (v : String)
    (hv : pyStrip v = "")
    (hr : ∀ kv ∈ r, ¬ normalize_field kv.1 = "product_url") :
    processRow cat now (r ++ [("product_url", some v)]) = processRow cat now r ∧
    (∀ comp attrs tags, processRow cat now r = .ok (some (comp, attrs, tags)) →
      comp.product_url = none ∧ comp.id = hash_component_id cat comp.name "") := by
  have hkeys : ∀ kv ∈ normalizeRow r, ¬ kv.1 = "product_url" := normalizeRow_keys hr
  have hrpu : rowProductUrl (normalizeRow r) = "" := by
    unfold rowProductUrl
    rw [dictGet_none_of_no_key hkeys,
      dictGet_none_of_no_key (normalizeRow_keys (fun kv _ => normalize_field_ne_url kv.1))]
    rfl
  constructor
  · unfold processRow
    rw [normalizeRow_append_single r "product_url" (some v) (by decide)]
    rw [show normalize_field "product_url" = "product_url" from rfl]
    rw [show stripCell (some v) = some (pyStrip v) from rfl, hv]
    rw [dictInsert_absent hkeys]
    exact processRowN_empty_url cat now (normalizeRow r) hkeys
  · intro comp attrs tags h
    obtain ⟨name, price, pprice, stock, _, _, _, _, _, hcomp, _, _⟩ := processRow_ok_inv h
    constructor
    · rw [hcomp]
      simp only [hrpu, if_pos]
    · rw [hcomp, hrpu]

/-- Witness for C10 at a concrete row with a whitespace url cell. -/
theorem c10_empty_url_equals_absent_witness :
    processRow "CPU" 0 ([("name", some "n")] ++ [("product_url", some " ")]) =
      processRow "CPU" 0 [("name", some "n")] ∧
    ({ id := "82ee24a6e2efca84843aa15e148fc0275d853f40", category := "CPU", name := "n",
       brand := none, price := none, previous_price := none, image_url := none,
       product_url := none, in_stock := some true, stock_units := 0,
       last_updated := 0 } : Component).product_url = none ∧
    ({ id := "82ee24a6e2efca84843aa15e148fc0275d853f40", category := "CPU", name := "n",
       brand := none, price := none, previous_price := none, image_url := none,
       product_url := none, in_stock := some true, stock_units := 0,
       last_updated := 0 } : Component).id =
      hash_component_id "CPU"
        ({ id := "82ee24a6e2efca84843aa15e148fc0275d853f40", category := "CPU",
           name := "n", brand := none, price := none, previous_price := none,
           image_url := none, product_url := none, in_stock := some true,
           stock_units := 0, last_updated := 0 } : Component).name "" := by
  have hmain := c10_empty_url_equals_absent "CPU" 0 [("name", some "n")] " " (by rfl)
    (by intro kv hkv; simp only [List.mem_singleton] at hkv; rw [hkv]; decide)
  refine ⟨hmain.1, ?_, ?_⟩
  · exact (hmain.2 _ [] _ (by rfl)).1
  · exact (hmain.2 _ [] _ (by rfl)).2

/-! ## Claim C6: price parsing and failure propagation -/

/-- C6: the price fields are parsed exactly when the normalized value
is present and nonempty and are null otherwise; an unparseable
present value raises, the row's exception fails the whole file, and a
failing file aborts the run with no per-row catch or skip. -/
theorem c6_price_parsing :
    (∀ cat now raw comp attrs tags,
      processRow cat now raw = .ok (some (comp, attrs, tags)) →
      ((cellTruthy (dictGet (normalizeRow raw) "price") = false → comp.price = none) ∧
       (cellTruthy (dictGet (normalizeRow raw) "price") = true →
          ∃ q, pyFloat (cellStr (dictGet (normalizeRow raw) "price")) = some q ∧
            comp.price = some q) ∧
       (cellTruthy (dictGet (normalizeRow raw) "previous_price") = false →
          comp.previous_price = none) ∧
       (cellTruthy (dictGet (normalizeRow raw) "previous_price") = true →
          ∃ q, pyFloat (cellStr (dictGet (normalizeRow raw) "previous_price")) = some q ∧
            comp.previous_price = some q))) ∧
    (∀ cat now raw, cellTruthy (dictGet (normalizeRow raw) "name") = true →
      cellTruthy (dictGet (normalizeRow raw) "price") = true →
      pyFloat (cellStr (dictGet (normalizeRow raw) "price")) = none →
      processRow cat now raw = .error "numeric parse") ∧
    (∀ cat now rows r msg, r ∈ rows → processRow cat now r = .error msg →
      ∀ P, ¬ buildPayloads cat now rows = .ok P) ∧
    (∀ (normTag : String → String) cat rows fs clock (db : DB) e, ¬ rows = [] →
      buildPayloads cat (clock.headD 0) rows = .error e →
      runImport normTag ((cat, rows) :: fs) clock db = (db, false)) := by
  refine ⟨?_, ?_, ?_, ?_⟩
  · intro cat now raw comp attrs tags h
    obtain ⟨name, price, pprice, stock, _, _, hp, hpp, _, hcomp, _, _⟩ :=
      processRow_ok_inv h
    have hprice : comp.price = price := by rw [hcomp]
    have hpprice : comp.previous_price = pprice := by rw [hcomp]
    refine ⟨?_, ?_, ?_, ?_⟩
    · intro hf
      unfold parsePrice at hp
      rw [hf] at hp
      rw [if_neg (by exact Bool.false_ne_true)] at hp
      rw [hprice, ← Option.some.inj hp]
    · intro ht
      unfold parsePrice at hp
      rw [ht] at hp
      simp only [if_true] at hp
      cases hq : pyFloat (cellStr (dictGet (normalizeRow raw) "price")) with
      | none =>
          rw [hq] at hp
          simp at hp
      | some q =>
          rw [hq] at hp
          exact ⟨q, rfl, by rw [hprice, ← Option.some.inj hp]⟩
    · intro hf
      unfold parsePrice at hpp
      rw [hf] at hpp
      rw [if_neg (by exact Bool.false_ne_true)] at hpp
      rw [hpprice, ← Option.some.inj hpp]
    · intro ht
      unfold parsePrice at hpp
      rw [ht] at hpp
      simp only [if_true] at hpp
      cases hq : pyFloat (cellStr (dictGet (normalizeRow raw) "previous_price")) with
      | none =>
          rw [hq] at hpp
          simp at hpp
      | some q =>
          rw [hq] at hpp
          exact ⟨q, rfl, by rw [hpprice, ← Option.some.inj hpp]⟩
  · intro cat now raw hname hpricet hpf
    obtain ⟨s, hs, hsne⟩ := (cellTruthy_true_iff _).mp hname
    have hp : parsePrice (dictGet (normalizeRow raw) "price") = none := by
      unfold parsePrice
      rw [if_pos hpricet, hpf]
      rfl
    unfold processRow processRowN
    rw [hs]
    dsimp only
    rw [if_neg hsne, hp]
  · intro cat now rows r msg hmem herr
    induction rows with
    | nil => simp at hmem
    | cons q rest ih =>
        intro P hcontra
        simp only [buildPayloads] at hcontra
        rcases List.mem_cons.mp hmem with hq | hq
        · rw [← hq, herr] at hcontra
          simp at hcontra
        · cases hr : processRow cat now q with
          | error e =>
              rw [hr] at hcontra
              simp at hcontra
          | ok res =>
              rw [hr] at hcontra
              cases hb : buildPayloads cat now rest with
              | error e =>
                  rw [hb] at hcontra
                  cases res with
                  | none => simp at hcontra
                  | some out => simp at hcontra
              | ok p => exact ih hq p hb
  · intro normTag cat rows fs clock db e hrows herr
    unfold runImport
    simp only [runAux]
    rw [if_neg hrows, herr]

/-- Witness for C6: a parsed price, a null price, a raising row, and
an aborted run, all at concrete inputs. -/
theorem c6_price_parsing_witness :
    (∃ q, pyFloat (cellStr (dictGet (normalizeRow [("name", some "RTX 4090"),
        ("brand", some "NVIDIA"), ("price", some "1599.99"), ("url", some "http://x/y"),
        ("wattage", some "450W")]) "price")) = some q ∧
      ({ id := "5f70d0f4d1192d2ebfb7a29b4c1a10786ad1b7a6", category := "GPU",
         name := "RTX 4090", brand := some "NVIDIA", price := some ⟨159999, 100⟩,
         previous_price := none, image_url := none, product_url := some "http://x/y",
         in_stock := some true, stock_units := 0,
         last_updated := 7 } : Component).price = some q) ∧
    ({ id := "5f70d0f4d1192d2ebfb7a29b4c1a10786ad1b7a6", category := "GPU",
       name := "RTX 4090", brand := some "NVIDIA", price := some ⟨159999, 100⟩,
       previous_price := none, image_url := none, product_url := some "http://x/y",
       in_stock := some true, stock_units := 0,
       last_updated := 7 } : Component).previous_price = none ∧
    processRow "GPU" 1 [("name", some "b"), ("price", some "x")] = .error "numeric parse" ∧
    (¬ buildPayloads "GPU" 1 [[("name", some "b"), ("price", some "x")]] =
        .ok ⟨[], [], []⟩) ∧
    runImport id [("GPU", [[("name", some "b"), ("price", some "x")]])] [1] ⟨[], [], []⟩ =
      (⟨[], [], []⟩, false) := by
  refine ⟨?_, ?_, ?_, ?_, ?_⟩
  · exact (c6_price_parsing.1 "GPU" 7 [("name", some "RTX 4090"),
      ("brand", some "NVIDIA"), ("price", some "1599.99"), ("url", some "http://x/y"),
      ("wattage", some "450W")] _ _ _ (by rfl)).2.1 (by rfl)
  · exact (c6_price_parsing.1 "GPU" 7 [("name", some "RTX 4090"),
      ("brand", some "NVIDIA"), ("price", some "1599.99"), ("url", some "http://x/y"),
      ("wattage", some "450W")] _ _ _ (by rfl)).2.2.1 (by rfl)
  · exact c6_price_parsing.2.1 "GPU" 1 [("name", some "b"), ("price", some "x")]
      (by rfl) (by rfl) (by rfl)
  · exact c6_price_parsing.2.2.1 "GPU" 1 [[("name", some "b"), ("price", some "x")]]
      [("name", some "b"), ("price", some "x")] "numeric parse"
      (List.mem_singleton.mpr rfl) (by rfl) ⟨[], [], []⟩
  · exact c6_price_parsing.2.2.2 id "GPU" [[("name", some "b"), ("price", some "x")]]
      [] [1] ⟨[], [], []⟩ "numeric parse" (by simp) (by rfl)

/-! ## Claim C5: one timestamp per file, not per run (corrected) -/

/-- Counterexample to C5 as stated: in a run over two files whose
clock samples differ, the two files' components carry different
`last_updated` values, so the run does not use one single timestamp. -/
theorem c5_counterexample :
    ¬ (∀ c1 ∈ (runImport id [("CPU", [[("name", some "a")]]),
          ("GPU", [[("name", some "b")]])] [0, 1] ⟨[], [], []⟩).1.components,
       ∀ c2 ∈ (runImport id [("CPU", [[("name", some "a")]]),
          ("GPU", [[("name", some "b")]])] [0, 1] ⟨[], [], []⟩).1.components,
       c1.last_updated = c2.last_updated) := by decide

/-- C5 (amended): all components built from one file share that single
file's clock sample as `last_updated`; samples are taken once per
`upsert_components` call (per file), not once per run. -/
theorem c5_per_file_timestamp (cat : String) (now : Nat) (rows : List Row) (P : Payload)
    (h : buildPayloads cat now rows = .ok P) :
    ∀ c ∈ P.components, c.last_updated = now := by
  induction rows generalizing P with
  | nil =>
      simp only [buildPayloads, Except.ok.injEq] at h
      rw [← h]
      intro c hc
      simp at hc
  | cons r rest ih =>
      simp only [buildPayloads] at h
      cases hr : processRow cat now r with
      | error e =>
          rw [hr] at h
          simp at h
      | ok res =>
          rw [hr] at h
          cases hb : buildPayloads cat now rest with
          | error e =>
              rw [hb] at h
              simp at h
          | ok p =>
              rw [hb] at h
              cases res with
              | none =>
                  simp only [Except.ok.injEq] at h
                  rw [← h]
                  exact ih p hb
              | some out =>
                  obtain ⟨c0, as, ts⟩ := out
                  simp only [Except.ok.injEq] at h
                  rw [← h]
                  intro c hc
                  rcases List.mem_cons.mp hc with hc' | hc'
                  · obtain ⟨name, price, pprice, stock, _, _, _, _, _, hcomp, _, _⟩ :=
                      processRow_ok_inv hr
                    rw [hc', hcomp]
                  · exact ih p hb c hc'

/-- Witness for the amended C5 at a concrete file. -/
theorem c5_per_file_timestamp_witness :
    ({ id := "c7c3b148b825dee1f6827d0005de5bf750eca48d", category := "CPU", name := "a",
       brand := none, price := none, previous_price := none, image_url := none,
       product_url := none, in_stock := some true, stock_units := 0,
       last_updated := 5 } : Component).last_updated = 5 :=
  c5_per_file_timestamp "CPU" 5 [[("name", some "a")]] _ (by rfl) _
    (List.mem_singleton.mpr rfl)

/-! ## Claim C4: per-file commit, abort on first error (corrected) -/

/-- Counterexample to C4 as stated: a run over a good file followed by
a file with an unparseable price reports failure, yet the first
file's writes remain committed. -/
theorem c4_counterexample :
    (runImport id [("CPU", [[("name", some "a")]]),
        ("GPU", [[("name", some "b"), ("price", some "x")]])] [0, 1] ⟨[], [], []⟩).2 =
      false ∧
    ¬ (runImport id [("CPU", [[("name", some "a")]]),
        ("GPU", [[("name", some "b"), ("price", some "x")]])] [0, 1]
        ⟨[], [], []⟩).1.components = [] := by
  constructor
  · rfl
  · decide

/-- Processing a run prefix then the rest: the run continues after a
committed prefix and stops at a failure. -/
theorem runAux_append (normTag : String → String) (fs1 fs2 : List (String × List Row))
    (clock : List Nat) (db : DB) :
    runAux normTag (fs1 ++ fs2) clock db =
      (match runAux normTag fs1 clock db with
       | (db', clock', true) => runAux normTag fs2 clock' db'
       | (db', clock', false) => (db', clock', false)) := by
  induction fs1 generalizing clock db with
  | nil => rfl
  | cons f fs1 ih =>
      obtain ⟨cat, rows⟩ := f
      simp only [List.cons_append, runAux]
      by_cases hrows : rows = []
      · rw [if_pos hrows, if_pos hrows]
        exact ih clock db
      · rw [if_neg hrows, if_neg hrows]
        cases hb : buildPayloads cat (clock.headD 0) rows with
        | error e => rfl
        | ok p => exact ih (clock.tail) (applyPayload normTag db p)

/-- C4 (amended): when a file raises, the current file's uncommitted
writes are discarded, the run reports failure and processes no
further files, but the writes committed for files processed earlier
in the same run remain committed. -/
theorem c4_abort_keeps_earlier_commits (normTag : String → String)
    (fs1 : List (String × List Row)) (cat : String) (rows : List Row)
    (fs2 : List (String × List Row)) (clock : List Nat) (db db1 : DB)
    (clock1 : List Nat) (e : String)
    (h1 : runAux normTag fs1 clock db = (db1, clock1, true))
    (hrows : ¬ rows = [])
    (h2 : buildPayloads cat (clock1.headD 0) rows = .error e) :
    runImport normTag (fs1 ++ (cat, rows) :: fs2) clock db = (db1, false) := by
  unfold runImport
  rw [runAux_append, h1]
  dsimp only
  simp only [runAux]
  rw [if_neg hrows, h2]

/-- Witness for the amended C4 at a concrete two-file run. -/
theorem c4_abort_keeps_earlier_commits_witness :
    runImport id ([("CPU", [[("name", some "a")]])] ++
        ("GPU", [[("name", some "b"), ("price", some "x")]]) :: []) [0, 1] ⟨[], [], []⟩ =
      (⟨[⟨"c7c3b148b825dee1f6827d0005de5bf750eca48d", "CPU", "a", none, none, none,
          none, none, some true, 0, 0⟩], [],
        [⟨"c7c3b148b825dee1f6827d0005de5bf750eca48d", "CPU"⟩]⟩, false) :=
  c4_abort_keeps_earlier_commits id [("CPU", [[("name", some "a")]])] "GPU"
    [[("name", some "b"), ("price", some "x")]] [] [0, 1] ⟨[], [], []⟩
    ⟨[⟨"c7c3b148b825dee1f6827d0005de5bf750eca48d", "CPU", "a", none, none, none,
       none, none, some true, 0, 0⟩], [],
     [⟨"c7c3b148b825dee1f6827d0005de5bf750eca48d", "CPU"⟩]⟩ [1] "numeric parse"
    (by rfl) (by simp) (by rfl)

/-! ## Sanity checks of the SHA-1 embedding against the standard
test vectors -/

/-- FIPS 180 test vector: the digest of the ASCII string abc. -/
theorem sha1Hex_vector_abc :
    sha1Hex (strUtf8 "abc") = "a9993e364706816aba3e25717850c26c9cd0d89d" := by rfl

/-- FIPS 180 test vector: the digest of the empty message. -/
theorem sha1Hex_vector_empty :
    sha1Hex (strUtf8 "") = "da39a3ee5e6b4b0d3255bfef95601890afd80709" := by rfl
